import Mathlib

/-!
Verification of the chain-reconstruction core of `src/scraper.py`
(`RedditUserScraper.get_user_comments_on_posts` and its inner helper
`is_in_user_chain`).

Modelling conventions:
* A praw comment (the element of the `user.comments.new(...)` stream) is
  modelled by `PrawComment`; `submission_id` stands for `comment.submission.id`.
* Python strings are Lean `String`s; `s.startswith(p)` is `hasPfx p s`
  (a character-list prefix test) and `s[3:]` is `strDrop s 3`.
* `created_utc` is modelled as `Int`: the code only ever compares these
  values as sort keys, never does float arithmetic on them.
* `created_datetime` is omitted from the model: in the source it is
  `datetime.fromtimestamp(created_utc).isoformat()`, a pure function of the
  `created_utc` field, carrying no independent information.
* Python dicts (`all_user_comments`, `comments_by_post`) are association
  lists in insertion order; overwriting a key keeps its position
  (`dictInsert`), exactly like a Python dict.  The set
  `top_level_comment_ids` is a list used only through membership.
* The two loops that are not structurally recursive in the source — the
  recursion of `is_in_user_chain` and the `while` depth walk — are modelled
  with explicit fuel, returning `none` when the fuel runs out ("the Python
  code would still be running").  The wrappers use fuel `index.length + 1`;
  sufficiency of that fuel is proved, not assumed, where it holds.
* Python's stable `list.sort(key=created_utc)` is modelled by insertion
  sort on the same key; a stable sort by a key is extensionally unique, and
  both sortedness and stability are proved below.
-/

/-- Input record: the fields of a praw comment that the algorithm reads.
`submission_id` models `comment.submission.id`. -/
structure PrawComment where
  id : String
  body : String
  score : Int
  created_utc : Int
  permalink : String
  parent_id : String
  is_submitter : Bool
  submission_id : String
deriving DecidableEq, Repr

/-- Output record: the `comment_data` dictionary built in the first pass of
`get_user_comments_on_posts`. -/
structure CommentData where
  id : String
  body : String
  score : Int
  created_utc : Int
  permalink : String
  parent_id : String
  is_submitter : Bool
  post_id : String
  depth : Nat
deriving DecidableEq, Repr

/-- Character-list prefix test, modelling Python `str.startswith`. -/
def pfx : List Char → List Char → Bool
  | [], _ => true
  | _ :: _, [] => false
  | a :: as, b :: bs => a == b && pfx as bs

/-- Python `s.startswith(p)`. -/
def hasPfx (p s : String) : Bool := pfx p.data s.data

/-- Python slicing `s[n:]`. -/
def strDrop (s : String) (n : Nat) : String := ⟨s.data.drop n⟩

/-- Construction of `comment_data` from a praw comment (scraper.py lines
114–125): every field is copied verbatim except `permalink`, which the code
prefixes with `https://reddit.com`, and `depth`, initialised to 0. -/
def mkCommentData (c : PrawComment) : CommentData :=
  { id := c.id
    body := c.body
    score := c.score
    created_utc := c.created_utc
    permalink := "https://reddit.com" ++ c.permalink
    parent_id := c.parent_id
    is_submitter := c.is_submitter
    post_id := c.submission_id
    depth := 0 }

/-- Python dict lookup `d.get(k)` for `all_user_comments`. -/
def dictLookup (d : List (String × CommentData)) (k : String) : Option CommentData :=
  (d.find? (fun kv => kv.1 == k)).map (fun kv => kv.2)

/-- Python dict assignment `d[k] = v`: overwrite in place if the key is
present (keeping its position), otherwise append. -/
def dictInsert (d : List (String × CommentData)) (k : String) (v : CommentData) :
    List (String × CommentData) :=
  if d.any (fun kv => kv.1 == k) then
    d.map (fun kv => if kv.1 == k then (k, v) else kv)
  else d ++ [(k, v)]

/-- First pass of `get_user_comments_on_posts` (lines 105–132): walk the
comment stream, keep the comments whose post is targeted in
`all_user_comments` (the index), and record ids whose `parent_id` starts
with `t3_` in `top_level_comment_ids` (the roots). -/
def buildIndex (comments : List PrawComment) (post_ids : List String) :
    List (String × CommentData) × List String :=
  comments.foldl
    (fun acc c =>
      if post_ids.contains c.submission_id then
        let cd := mkCommentData c
        let index := dictInsert acc.1 c.id cd
        let roots := if hasPfx ("t3_") c.parent_id then acc.2 ++ [c.id] else acc.2
        (index, roots)
      else acc)
    ([], [])

/-- Parent-id decoding of line 160: `parent_id[3:] if parent_id.startswith('t1_')
else parent_id`. -/
def parentExtract (p : String) : String :=
  if hasPfx ("t1_") p then strDrop p 3 else p

/-- The recursion of `is_in_user_chain` (lines 135–163), with explicit fuel;
`none` means the fuel ran out before the recursion finished.  `visited` is
the cycle guard set. -/
def chainAux (index : List (String × CommentData)) (roots : List String) :
    Nat → String → List String → Option Bool
  | 0, _, _ => none
  | fuel + 1, cid, visited =>
    if visited.contains cid then some false
    else if roots.contains cid then some true
    else
      match dictLookup index cid with
      | none => some false
      | some cd =>
        if hasPfx ("t3_") cd.parent_id then some false
        else
          let pcid := parentExtract cd.parent_id
          if (dictLookup index pcid).isSome then chainAux index roots fuel pcid (cid :: visited)
          else some false

/-- Top-level call `is_in_user_chain(comment_id)` with an empty visited set;
the fuel `index.length + 1` is proved sufficient below. -/
def is_in_user_chain (index : List (String × CommentData)) (roots : List String)
    (cid : String) : Option Bool :=
  chainAux index roots (index.length + 1) cid []

/-- The depth `while` loop (lines 172–182), with explicit fuel; `none` means
the loop was still running when the fuel ran out. -/
def depthLoop (index : List (String × CommentData)) :
    Nat → String → Nat → Option Nat
  | 0, _, _ => none
  | fuel + 1, current, depth =>
    if hasPfx ("t1_") current then
      match dictLookup index (strDrop current 3) with
      | some cd => depthLoop index fuel cd.parent_id (depth + 1)
      | none => some (depth + 1)
    else some depth

/-- Depth computed for a retained non-root comment (lines 171–183). -/
def computeDepth (index : List (String × CommentData)) (cd : CommentData) : Nat :=
  (depthLoop index (index.length + 1) cd.parent_id 0).getD 0

/-- Appending to `comments_by_post[post_id]`, creating the key on first use
(lines 185–188); Python dict semantics as in `dictInsert`. -/
def appendGroup (m : List (String × List CommentData)) (k : String) (v : CommentData) :
    List (String × List CommentData) :=
  if m.any (fun kv => kv.1 == k) then
    m.map (fun kv => if kv.1 == k then (kv.1, kv.2 ++ [v]) else kv)
  else m ++ [(k, [v])]

/-- Selection, depth assignment and grouping loop (lines 166–188): iterate
the index in insertion order; retain a comment iff its id is a root or
`is_in_user_chain` holds; recompute `depth` for non-roots; append to the
per-post group. -/
def groupComments (comments : List PrawComment) (post_ids : List String) :
    List (String × List CommentData) :=
  let ir := buildIndex comments post_ids
  ir.1.foldl
    (fun m kv =>
      if ir.2.contains kv.1 || (is_in_user_chain ir.1 ir.2 kv.1).getD false then
        let cd := if ir.2.contains kv.1 then kv.2
                  else { kv.2 with depth := computeDepth ir.1 kv.2 }
        appendGroup m cd.post_id cd
      else m)
    []

/-- Python's stable sort by `created_utc` (lines 190–192). -/
def sortByCreated (l : List CommentData) : List CommentData :=
  l.insertionSort (fun a b => a.created_utc ≤ b.created_utc)

/-- The whole reconstruction `get_user_comments_on_posts` (lines 88–194):
group, then sort each per-post list by `created_utc`. -/
def get_user_comments_on_posts (comments : List PrawComment) (post_ids : List String) :
    List (String × List CommentData) :=
  (groupComments comments post_ids).map (fun kv => (kv.1, sortByCreated kv.2))

/-- Flatten of an output mapping: every record in every per-post list. -/
def allRecords (m : List (String × List CommentData)) : List CommentData :=
  (m.map (fun kv => kv.2)).flatten

/-! ### Basic lemmas on the string-prefix test -/

theorem pfx_cons {a : Char} {as l : List Char} (h : pfx (a :: as) l = true) :
    ∃ bs, l = a :: bs ∧ pfx as bs = true := by
  cases l with
  | nil => simp [pfx] at h
  | cons b bs =>
    simp only [pfx, Bool.and_eq_true, beq_iff_eq] at h
    exact ⟨bs, by rw [h.1], h.2⟩

theorem hasPfx_t3_not_t1 {s : String} (h : hasPfx ("t3_") s = true) :
    hasPfx ("t1_") s = false := by
  unfold hasPfx at h ⊢
  have hd3 : ("t3_").data = ['t', '3', '_'] := by decide
  have hd1 : ("t1_").data = ['t', '1', '_'] := by decide
  rw [hd3] at h
  rw [hd1]
  obtain ⟨bs, hbs, h⟩ := pfx_cons h
  obtain ⟨cs, hcs, _⟩ := pfx_cons h
  rw [hbs, hcs]
  simp [pfx]

/-! ### Python dict lemmas for the comment index -/

theorem dictLookup_cons {kv : String × CommentData} {t : List (String × CommentData)}
    {k : String} :
    dictLookup (kv :: t) k = if kv.1 = k then some kv.2 else dictLookup t k := by
  by_cases hk : kv.1 = k
  · simp [dictLookup, List.find?_cons, hk]
  · simp [dictLookup, List.find?_cons, hk]

theorem dictLookup_isSome_iff {d : List (String × CommentData)} {k : String} :
    (dictLookup d k).isSome = true ↔ k ∈ d.map Prod.fst := by
  induction d with
  | nil => simp [dictLookup]
  | cons kv t ih =>
    rw [dictLookup_cons]
    by_cases h : kv.1 = k
    · simp [h]
    · simp [h, ih, Ne.symm h]

theorem dictLookup_mem {d : List (String × CommentData)} {k : String} {v : CommentData}
    (h : dictLookup d k = some v) : (k, v) ∈ d := by
  induction d with
  | nil => simp [dictLookup] at h
  | cons kv t ih =>
    rw [dictLookup_cons] at h
    by_cases hk : kv.1 = k
    · rw [if_pos hk] at h
      injection h with h
      have hkv : (k, v) = kv := by rw [← hk, ← h]
      rw [hkv]
      exact List.mem_cons_self _ _
    · rw [if_neg hk] at h
      exact List.mem_cons_of_mem _ (ih h)

theorem dictInsert_keys_of_mem {d : List (String × CommentData)} {k : String}
    (v : CommentData) (h : k ∈ d.map Prod.fst) :
    (dictInsert d k v).map Prod.fst = d.map Prod.fst := by
  unfold dictInsert
  have hany : d.any (fun kv => kv.1 == k) = true := by
    simp only [List.any_eq_true, beq_iff_eq]
    obtain ⟨kv, hkv, hk⟩ := List.mem_map.mp h
    exact ⟨kv, hkv, hk⟩
  rw [if_pos hany, List.map_map]
  apply List.map_congr_left
  intro kv _
  by_cases hk : kv.1 = k <;> simp [hk]

theorem dictInsert_keys_of_not_mem {d : List (String × CommentData)} {k : String}
    (v : CommentData) (h : k ∉ d.map Prod.fst) :
    dictInsert d k v = d ++ [(k, v)] := by
  unfold dictInsert
  have hany : d.any (fun kv => kv.1 == k) = false := by
    simp only [List.any_eq_false, beq_iff_eq]
    intro kv hkv hk
    exact h (List.mem_map.mpr ⟨kv, hkv, hk⟩)
  rw [if_neg (by simp [hany])]

theorem dictInsert_mem {d : List (String × CommentData)} {k : String} {v : CommentData} :
    ∀ kv ∈ dictInsert d k v, kv ∈ d ∨ kv = (k, v) := by
  intro kv hkv
  unfold dictInsert at hkv
  split at hkv
  · obtain ⟨orig, horig, heq⟩ := List.mem_map.mp hkv
    by_cases hk : (orig.1 == k) = true
    · rw [if_pos hk] at heq
      right
      exact heq.symm
    · rw [if_neg hk] at heq
      left
      rw [← heq]
      exact horig
  · rcases List.mem_append.mp hkv with h | h
    · exact Or.inl h
    · right
      simpa using h

theorem dictInsert_keys_subset {d : List (String × CommentData)} {k : String}
    {v : CommentData} :
    d.map Prod.fst ⊆ (dictInsert d k v).map Prod.fst := by
  by_cases h : k ∈ d.map Prod.fst
  · rw [dictInsert_keys_of_mem v h]
    exact fun a ha => ha
  · rw [dictInsert_keys_of_not_mem v h]
    simp only [List.map_append]
    exact List.subset_append_left _ _

theorem dictInsert_key_mem {d : List (String × CommentData)} {k : String}
    {v : CommentData} : k ∈ (dictInsert d k v).map Prod.fst := by
  by_cases h : k ∈ d.map Prod.fst
  · rw [dictInsert_keys_of_mem v h]; exact h
  · rw [dictInsert_keys_of_not_mem v h]; simp

theorem dictInsert_keys_nodup {d : List (String × CommentData)} {k : String}
    {v : CommentData} (h : (d.map Prod.fst).Nodup) :
    ((dictInsert d k v).map Prod.fst).Nodup := by
  by_cases hk : k ∈ d.map Prod.fst
  · rw [dictInsert_keys_of_mem v hk]; exact h
  · rw [dictInsert_keys_of_not_mem v hk]
    simp only [List.map_append, List.map_cons, List.map_nil]
    refine List.Nodup.append h (List.nodup_singleton k) ?_
    intro a ha hb
    rw [List.mem_singleton] at hb
    exact hk (hb ▸ ha)

/-! ### Invariants of the first pass (`buildIndex`), for arbitrary input -/

/-- Invariant carried through the first-pass fold. -/
def IndexInv (comments : List PrawComment) (post_ids : List String)
    (acc : List (String × CommentData) × List String) : Prop :=
  (∀ kv ∈ acc.1, ∃ c ∈ comments,
      post_ids.contains c.submission_id = true ∧ kv.1 = c.id ∧ kv.2 = mkCommentData c)
  ∧ (acc.1.map Prod.fst).Nodup
  ∧ (∀ r ∈ acc.2, r ∈ acc.1.map Prod.fst)
  ∧ (∀ r ∈ acc.2, ∃ c ∈ comments,
      post_ids.contains c.submission_id = true ∧ c.id = r ∧ hasPfx ("t3_") c.parent_id = true)

theorem buildIndex_go_inv (comments : List PrawComment) (post_ids : List String) :
    ∀ (rest : List PrawComment), (∀ c ∈ rest, c ∈ comments) →
    ∀ acc, IndexInv comments post_ids acc →
      IndexInv comments post_ids (rest.foldl
        (fun acc c =>
          if post_ids.contains c.submission_id then
            let cd := mkCommentData c
            let index := dictInsert acc.1 c.id cd
            let roots := if hasPfx ("t3_") c.parent_id then acc.2 ++ [c.id] else acc.2
            (index, roots)
          else acc) acc) := by
  intro rest
  induction rest with
  | nil => intro _ acc h; exact h
  | cons c t ih =>
    intro hsub acc hacc
    rw [List.foldl_cons]
    apply ih (fun x hx => hsub x (List.mem_cons_of_mem _ hx))
    by_cases hc : post_ids.contains c.submission_id
    · rw [if_pos hc]
      obtain ⟨hrec, hnd, hsubk, hroot⟩ := hacc
      have hcmem : c ∈ comments := hsub c (List.mem_cons_self _ _)
      refine ⟨?_, ?_, ?_, ?_⟩
      · intro kv hkv
        rcases dictInsert_mem kv hkv with h | h
        · exact hrec kv h
        · exact ⟨c, hcmem, hc, by rw [h], by rw [h]⟩
      · exact dictInsert_keys_nodup hnd
      · intro r hr
        by_cases ht3 : hasPfx ("t3_") c.parent_id
        · rw [if_pos ht3] at hr
          rcases List.mem_append.mp hr with h | h
          · exact dictInsert_keys_subset (hsubk r h)
          · simp only [List.mem_singleton] at h
            rw [h]
            exact dictInsert_key_mem
        · rw [if_neg ht3] at hr
          exact dictInsert_keys_subset (hsubk r hr)
      · intro r hr
        by_cases ht3 : hasPfx ("t3_") c.parent_id
        · rw [if_pos ht3] at hr
          rcases List.mem_append.mp hr with h | h
          · exact hroot r h
          · simp only [List.mem_singleton] at h
            exact ⟨c, hcmem, hc, h.symm, ht3⟩
        · rw [if_neg ht3] at hr
          exact hroot r hr
    · rw [if_neg hc]
      exact hacc

theorem buildIndex_inv (comments : List PrawComment) (post_ids : List String) :
    IndexInv comments post_ids (buildIndex comments post_ids) := by
  unfold buildIndex
  exact buildIndex_go_inv comments post_ids comments (fun _ h => h) ([], [])
    ⟨by simp, by simp, by simp, by simp⟩

/-! ### Exact shape of the first pass when input ids are distinct -/

/-- The post-filtered input: records whose `post_id` is targeted. -/
def postFiltered (comments : List PrawComment) (post_ids : List String) :
    List PrawComment :=
  comments.filter fun c => post_ids.contains c.submission_id

/-- Index produced on a distinct-id input. -/
def plainIndex (comments : List PrawComment) (post_ids : List String) :
    List (String × CommentData) :=
  (postFiltered comments post_ids).map fun c => (c.id, mkCommentData c)

/-- Root-id list produced on a distinct-id input. -/
def plainRoots (comments : List PrawComment) (post_ids : List String) : List String :=
  ((postFiltered comments post_ids).filter fun c => hasPfx ("t3_") c.parent_id).map
    PrawComment.id

theorem plainIndex_keys (comments : List PrawComment) (post_ids : List String) :
    (plainIndex comments post_ids).map Prod.fst =
      (postFiltered comments post_ids).map PrawComment.id := by
  unfold plainIndex
  rw [List.map_map]
  rfl

theorem buildIndex_go_eq (post_ids : List String) :
    ∀ (rest pre : List PrawComment),
      ((pre ++ rest).map PrawComment.id).Nodup →
      rest.foldl
        (fun acc c =>
          if post_ids.contains c.submission_id then
            let cd := mkCommentData c
            let index := dictInsert acc.1 c.id cd
            let roots := if hasPfx ("t3_") c.parent_id then acc.2 ++ [c.id] else acc.2
            (index, roots)
          else acc)
        (plainIndex pre post_ids, plainRoots pre post_ids) =
      (plainIndex (pre ++ rest) post_ids, plainRoots (pre ++ rest) post_ids) := by
  intro rest
  induction rest with
  | nil => intro pre _; rw [List.foldl_nil, List.append_nil]
  | cons c t ih =>
    intro pre hnd
    rw [List.foldl_cons]
    have hstep :
        (if post_ids.contains c.submission_id then
          ((dictInsert (plainIndex pre post_ids) c.id (mkCommentData c)),
           (if hasPfx ("t3_") c.parent_id then plainRoots pre post_ids ++ [c.id]
            else plainRoots pre post_ids))
         else (plainIndex pre post_ids, plainRoots pre post_ids)) =
        (plainIndex (pre ++ [c]) post_ids, plainRoots (pre ++ [c]) post_ids) := by
      have hfil : postFiltered (pre ++ [c]) post_ids =
          postFiltered pre post_ids ++
            (if post_ids.contains c.submission_id then [c] else []) := by
        unfold postFiltered
        rw [List.filter_append]
        by_cases hc : post_ids.contains c.submission_id
        · rw [if_pos hc]
          simp only [List.filter_cons, List.filter_nil]
          rw [if_pos hc]
        · rw [if_neg hc]
          simp only [List.filter_cons, List.filter_nil]
          rw [if_neg hc]
      by_cases hc : post_ids.contains c.submission_id
      · rw [if_pos hc]
        have hnotmem : c.id ∉ (plainIndex pre post_ids).map Prod.fst := by
          rw [plainIndex_keys]
          intro hmem
          have hsub : (postFiltered pre post_ids).map PrawComment.id ⊆
              pre.map PrawComment.id :=
            List.map_subset _ (List.filter_subset' _)
          have hmem' : c.id ∈ pre.map PrawComment.id := hsub hmem
          rw [List.map_append] at hnd
          rcases List.nodup_append.mp hnd with ⟨_, _, hdisj⟩
          exact hdisj hmem' (by simp)
        rw [dictInsert_keys_of_not_mem _ hnotmem]
        have hidx : plainIndex (pre ++ [c]) post_ids =
            plainIndex pre post_ids ++ [(c.id, mkCommentData c)] := by
          unfold plainIndex
          rw [hfil, if_pos hc, List.map_append]
          rfl
        have hrts : plainRoots (pre ++ [c]) post_ids =
            if hasPfx ("t3_") c.parent_id then plainRoots pre post_ids ++ [c.id]
            else plainRoots pre post_ids := by
          unfold plainRoots
          rw [hfil, if_pos hc, List.filter_append]
          by_cases ht3 : hasPfx ("t3_") c.parent_id
          · rw [if_pos ht3, List.map_append]
            simp [ht3]
          · rw [if_neg ht3]
            simp [ht3]
        rw [hidx, hrts]
      · rw [if_neg hc]
        have hidx : plainIndex (pre ++ [c]) post_ids = plainIndex pre post_ids := by
          unfold plainIndex
          rw [hfil, if_neg hc, List.append_nil]
        have hrts : plainRoots (pre ++ [c]) post_ids = plainRoots pre post_ids := by
          unfold plainRoots
          rw [hfil, if_neg hc, List.append_nil]
        rw [hidx, hrts]
    rw [hstep]
    have hnd' : (((pre ++ [c]) ++ t).map PrawComment.id).Nodup := by
      rw [List.append_assoc]
      exact hnd
    have := ih (pre ++ [c]) hnd'
    rw [List.append_assoc] at this
    exact this

theorem buildIndex_eq (comments : List PrawComment) (post_ids : List String)
    (hN : (comments.map PrawComment.id).Nodup) :
    buildIndex comments post_ids =
      (plainIndex comments post_ids, plainRoots comments post_ids) := by
  unfold buildIndex
  have h0 : (plainIndex ([] : List PrawComment) post_ids,
      plainRoots ([] : List PrawComment) post_ids) =
      (([] : List (String × CommentData)), ([] : List String)) := by
    simp [plainIndex, plainRoots, postFiltered]
  have := buildIndex_go_eq post_ids comments [] (by simpa using hN)
  rw [h0] at this
  simpa using this

/-! ### The grouping dictionary `comments_by_post` -/

/-- Lookup in the output mapping. -/
def lookupG (m : List (String × List CommentData)) (k : String) :
    Option (List CommentData) :=
  (m.find? (fun kv => kv.1 == k)).map (fun kv => kv.2)

/-- The retained records, depth already assigned, in index order: the
records appended to `comments_by_post` by the selection loop. -/
def selectedList (comments : List PrawComment) (post_ids : List String) :
    List CommentData :=
  let ir := buildIndex comments post_ids
  ir.1.filterMap
    (fun kv =>
      if ir.2.contains kv.1 || (is_in_user_chain ir.1 ir.2 kv.1).getD false then
        some (if ir.2.contains kv.1 then kv.2
              else { kv.2 with depth := computeDepth ir.1 kv.2 })
      else none)

/-- Folding the retained records into per-post groups. -/
def groupFold (l : List CommentData) (m : List (String × List CommentData)) :
    List (String × List CommentData) :=
  l.foldl (fun m cd => appendGroup m cd.post_id cd) m

theorem groupComments_eq_fold (comments : List PrawComment) (post_ids : List String) :
    groupComments comments post_ids = groupFold (selectedList comments post_ids) [] := by
  have key : ∀ (index : List (String × CommentData)) (roots : List String)
      (l : List (String × CommentData)) (m : List (String × List CommentData)),
      l.foldl
        (fun m kv =>
          if roots.contains kv.1 || (is_in_user_chain index roots kv.1).getD false then
            let cd := if roots.contains kv.1 then kv.2
                      else { kv.2 with depth := computeDepth index kv.2 }
            appendGroup m cd.post_id cd
          else m) m =
      (l.filterMap
        (fun kv =>
          if roots.contains kv.1 || (is_in_user_chain index roots kv.1).getD false then
            some (if roots.contains kv.1 then kv.2
                  else { kv.2 with depth := computeDepth index kv.2 })
          else none)).foldl (fun m cd => appendGroup m cd.post_id cd) m := by
    intro index roots l
    induction l with
    | nil => intro m; rfl
    | cons kv t ih =>
      intro m
      rw [List.foldl_cons, List.filterMap_cons]
      by_cases h :
          (roots.contains kv.1 || (is_in_user_chain index roots kv.1).getD false) = true
      · rw [if_pos h, if_pos h, List.foldl_cons]
        exact ih _
      · rw [if_neg h, if_neg h]
        exact ih _
  exact key (buildIndex comments post_ids).1 (buildIndex comments post_ids).2
    (buildIndex comments post_ids).1 []

theorem lookupG_cons {kv : String × List CommentData} {t : List (String × List CommentData)}
    {k : String} :
    lookupG (kv :: t) k = if kv.1 = k then some kv.2 else lookupG t k := by
  by_cases hk : kv.1 = k
  · simp [lookupG, List.find?_cons, hk]
  · simp [lookupG, List.find?_cons, hk]

theorem appendGroup_eq_cons {kv : String × List CommentData}
    {t : List (String × List CommentData)} {k : String} {v : CommentData}
    (h : kv.1 ≠ k) : appendGroup (kv :: t) k v = kv :: appendGroup t k v := by
  unfold appendGroup
  have hb : (kv.1 == k) = false := by simp [h]
  simp only [List.any_cons, hb, Bool.false_or]
  by_cases ht : t.any (fun kv => kv.1 == k)
  · rw [if_pos ht, if_pos ht, List.map_cons, if_neg (by simp [h])]
  · rw [if_neg ht, if_neg ht]
    rfl

theorem appendGroup_head_eq {kv : String × List CommentData}
    {t : List (String × List CommentData)} {k : String} {v : CommentData}
    (h : kv.1 = k) :
    appendGroup (kv :: t) k v =
      (kv.1, kv.2 ++ [v]) ::
        t.map (fun kv2 => if kv2.1 == k then (kv2.1, kv2.2 ++ [v]) else kv2) := by
  unfold appendGroup
  have hb : (kv.1 == k) = true := by simp [h]
  have hany : (kv :: t).any (fun kv => kv.1 == k) = true := by
    simp only [List.any_cons, hb, Bool.true_or]
  rw [if_pos hany, List.map_cons, if_pos hb]

theorem lookupG_map_modify {t : List (String × List CommentData)} {k k' : String}
    {v : CommentData} (h : k' ≠ k) :
    lookupG (t.map (fun kv => if kv.1 == k then (kv.1, kv.2 ++ [v]) else kv)) k' =
      lookupG t k' := by
  induction t with
  | nil => rfl
  | cons kv t ih =>
    rw [List.map_cons]
    by_cases hk : (kv.1 == k) = true
    · rw [if_pos hk, lookupG_cons, lookupG_cons]
      have : kv.1 ≠ k' := by
        rw [beq_iff_eq] at hk
        rw [hk]
        exact fun he => h he.symm
      rw [if_neg this, if_neg this]
      exact ih
    · rw [if_neg hk, lookupG_cons, lookupG_cons]
      by_cases hk' : kv.1 = k'
      · rw [if_pos hk', if_pos hk']
      · rw [if_neg hk', if_neg hk']
        exact ih

theorem lookupG_appendGroup_same {m : List (String × List CommentData)} {k : String}
    {v : CommentData} :
    lookupG (appendGroup m k v) k = some ((lookupG m k).getD [] ++ [v]) := by
  induction m with
  | nil => simp [appendGroup, lookupG]
  | cons kv t ih =>
    by_cases hk : kv.1 = k
    · rw [appendGroup_head_eq hk, lookupG_cons, if_pos hk, lookupG_cons, if_pos hk]
      rfl
    · rw [appendGroup_eq_cons hk, lookupG_cons, if_neg hk, lookupG_cons, if_neg hk]
      exact ih

theorem lookupG_appendGroup_other {m : List (String × List CommentData)} {k k' : String}
    {v : CommentData} (h : k' ≠ k) :
    lookupG (appendGroup m k v) k' = lookupG m k' := by
  induction m with
  | nil =>
    unfold appendGroup
    simp only [List.any_nil, Bool.false_eq_true, if_false, List.nil_append]
    rw [lookupG_cons, if_neg (fun he => h he.symm)]
  | cons kv t ih =>
    by_cases hk : kv.1 = k
    · rw [appendGroup_head_eq hk, lookupG_cons, lookupG_cons]
      have hne : kv.1 ≠ k' := by rw [hk]; exact fun he => h he.symm
      rw [if_neg hne, if_neg hne]
      exact lookupG_map_modify h
    · rw [appendGroup_eq_cons hk, lookupG_cons, lookupG_cons]
      by_cases hk' : kv.1 = k'
      · rw [if_pos hk', if_pos hk']
      · rw [if_neg hk', if_neg hk']
        exact ih



theorem lookupG_groupFold (l : List CommentData) (m : List (String × List CommentData))
    (k : String) :
    lookupG (groupFold l m) k =
      match lookupG m k with
      | some g => some (g ++ l.filter (fun cd => cd.post_id == k))
      | none =>
        if (l.filter (fun cd => cd.post_id == k)).isEmpty then none
        else some (l.filter (fun cd => cd.post_id == k)) := by
  induction l generalizing m with
  | nil =>
    cases h : lookupG m k with
    | none => simp [groupFold, h]
    | some g => simp [groupFold, h]
  | cons cd t ih =>
    have hstep : groupFold (cd :: t) m = groupFold t (appendGroup m cd.post_id cd) := rfl
    rw [hstep, ih]
    by_cases hk : cd.post_id = k
    · have hfil : (cd :: t).filter (fun cd => cd.post_id == k) =
          cd :: t.filter (fun cd => cd.post_id == k) := by
        rw [List.filter_cons, if_pos (by simp [hk])]
      rw [hfil]
      have hsame : lookupG (appendGroup m cd.post_id cd) k =
          some ((lookupG m k).getD [] ++ [cd]) := by
        rw [hk]
        exact lookupG_appendGroup_same
      rw [hsame]
      cases h : lookupG m k with
      | none => simp
      | some g => simp
    · have hfil : (cd :: t).filter (fun cd => cd.post_id == k) =
          t.filter (fun cd => cd.post_id == k) := by
        rw [List.filter_cons, if_neg (by simp [hk])]
      rw [hfil, lookupG_appendGroup_other (fun he => hk he.symm)]

theorem appendGroup_keys_cases (m : List (String × List CommentData)) (k : String)
    (v : CommentData) :
    (appendGroup m k v).map Prod.fst = m.map Prod.fst ∨
      (k ∉ m.map Prod.fst ∧
        (appendGroup m k v).map Prod.fst = m.map Prod.fst ++ [k]) := by
  unfold appendGroup
  by_cases h : m.any (fun kv => kv.1 == k)
  · left
    rw [if_pos h, List.map_map]
    apply List.map_congr_left
    intro kv _
    simp only [Function.comp_apply]
    by_cases hk : (kv.1 == k) = true
    · rw [if_pos hk]
    · rw [if_neg hk]
  · right
    have hanyf : m.any (fun kv => kv.1 == k) = false := eq_false_of_ne_true h
    constructor
    · intro hmem
      obtain ⟨kv, hkv, hk⟩ := List.mem_map.mp hmem
      have := List.any_eq_false.mp hanyf kv hkv
      simp [hk] at this
    · rw [if_neg h, List.map_append]
      rfl

theorem appendGroup_keys_nodup {m : List (String × List CommentData)} {k : String}
    {v : CommentData} (h : (m.map Prod.fst).Nodup) :
    ((appendGroup m k v).map Prod.fst).Nodup := by
  rcases appendGroup_keys_cases m k v with heq | ⟨hnm, heq⟩
  · rw [heq]; exact h
  · rw [heq]
    refine List.Nodup.append h (List.nodup_singleton k) ?_
    intro a ha hb
    rw [List.mem_singleton] at hb
    exact hnm (hb ▸ ha)

theorem groupFold_keys_nodup (l : List CommentData) :
    ∀ (m : List (String × List CommentData)), (m.map Prod.fst).Nodup →
      ((groupFold l m).map Prod.fst).Nodup := by
  induction l with
  | nil => intro m h; exact h
  | cons cd t ih =>
    intro m h
    exact ih _ (appendGroup_keys_nodup h)

theorem appendGroup_mem_cases {m : List (String × List CommentData)} {k : String}
    {v : CommentData} :
    ∀ kv ∈ appendGroup m k v,
      kv ∈ m ∨ (∃ kv0 ∈ m, kv = (kv0.1, kv0.2 ++ [v])) ∨ kv = (k, [v]) := by
  intro kv hkv
  unfold appendGroup at hkv
  split at hkv
  · obtain ⟨orig, horig, heq⟩ := List.mem_map.mp hkv
    by_cases hk : (orig.1 == k) = true
    · rw [if_pos hk] at heq
      exact Or.inr (Or.inl ⟨orig, horig, heq.symm⟩)
    · rw [if_neg hk] at heq
      exact Or.inl (heq ▸ horig)
  · rcases List.mem_append.mp hkv with hh | hh
    · exact Or.inl hh
    · exact Or.inr (Or.inr (by simpa using hh))

theorem groupFold_vals_nonempty (l : List CommentData) :
    ∀ (m : List (String × List CommentData)), (∀ kv ∈ m, kv.2 ≠ []) →
      ∀ kv ∈ groupFold l m, kv.2 ≠ [] := by
  induction l with
  | nil => intro m h; exact h
  | cons cd t ih =>
    intro m h
    apply ih
    intro kv hkv
    rcases appendGroup_mem_cases kv hkv with hm | ⟨kv0, _, heq⟩ | heq
    · exact h kv hm
    · rw [heq]
      simp
    · rw [heq]
      simp

theorem mem_lookupG {m : List (String × List CommentData)} {k : String}
    {g : List CommentData} (hnd : (m.map Prod.fst).Nodup) (h : (k, g) ∈ m) :
    lookupG m k = some g := by
  induction m with
  | nil => simp at h
  | cons kv t ih =>
    rw [List.map_cons, List.nodup_cons] at hnd
    rcases List.mem_cons.mp h with hh | hh
    · rw [← hh, lookupG_cons, if_pos rfl]
    · rw [lookupG_cons]
      have hk : kv.1 ≠ k := by
        intro he
        apply hnd.1
        rw [he]
        exact List.mem_map.mpr ⟨(k, g), hh, rfl⟩
      rw [if_neg hk]
      exact ih hnd.2 hh

theorem allRecords_cons (kv : String × List CommentData)
    (t : List (String × List CommentData)) :
    allRecords (kv :: t) = kv.2 ++ allRecords t := rfl

theorem allRecords_appendGroup {m : List (String × List CommentData)} {k : String}
    {v : CommentData} (hnd : (m.map Prod.fst).Nodup) :
    (allRecords (appendGroup m k v)).Perm (v :: allRecords m) := by
  induction m with
  | nil =>
    unfold appendGroup allRecords
    simp
  | cons kv t ih =>
    rw [List.map_cons, List.nodup_cons] at hnd
    by_cases hk : kv.1 = k
    · rw [appendGroup_head_eq hk]
      have htmap : t.map (fun kv2 => if kv2.1 == k then (kv2.1, kv2.2 ++ [v]) else kv2) = t := by
        have hcongr : ∀ kv2 ∈ t,
            (if kv2.1 == k then (kv2.1, kv2.2 ++ [v]) else kv2) = id kv2 := by
          intro kv2 hkv2
          have hne : kv2.1 ≠ k := by
            intro he
            apply hnd.1
            rw [hk, ← he]
            exact List.mem_map.mpr ⟨kv2, hkv2, rfl⟩
          rw [if_neg (by simp [hne])]
          rfl
        rw [List.map_congr_left hcongr, List.map_id]
      rw [htmap, allRecords_cons, allRecords_cons]
      have h1 : (kv.2 ++ [v]).Perm (v :: kv.2) := List.perm_append_singleton v kv.2
      exact h1.append_right (allRecords t)
    · rw [appendGroup_eq_cons hk, allRecords_cons, allRecords_cons]
      have h2 : (kv.2 ++ allRecords (appendGroup t k v)).Perm
          (kv.2 ++ (v :: allRecords t)) := (ih hnd.2).append_left kv.2
      exact h2.trans List.perm_middle

theorem allRecords_groupFold (l : List CommentData) :
    ∀ (m : List (String × List CommentData)), (m.map Prod.fst).Nodup →
      (allRecords (groupFold l m)).Perm (l ++ allRecords m) := by
  induction l with
  | nil => intro m _; exact List.Perm.refl _
  | cons cd t ih =>
    intro m hnd
    have hstep : groupFold (cd :: t) m = groupFold t (appendGroup m cd.post_id cd) := rfl
    rw [hstep]
    have h1 := ih (appendGroup m cd.post_id cd) (appendGroup_keys_nodup hnd)
    have h2 : (t ++ allRecords (appendGroup m cd.post_id cd)).Perm
        (t ++ (cd :: allRecords m)) := (allRecords_appendGroup hnd).append_left t
    exact (h1.trans h2).trans List.perm_middle

theorem allRecords_map_sort (m : List (String × List CommentData)) :
    (allRecords (m.map (fun kv => (kv.1, sortByCreated kv.2)))).Perm (allRecords m) := by
  induction m with
  | nil => exact List.Perm.refl _
  | cons kv t ih =>
    rw [List.map_cons, allRecords_cons, allRecords_cons]
    exact List.Perm.append (List.perm_insertionSort _ kv.2) ih

theorem allRecords_output_perm (comments : List PrawComment) (post_ids : List String) :
    (allRecords (get_user_comments_on_posts comments post_ids)).Perm
      (selectedList comments post_ids) := by
  unfold get_user_comments_on_posts
  rw [groupComments_eq_fold]
  have h1 := allRecords_map_sort (groupFold (selectedList comments post_ids) [])
  have h2 := allRecords_groupFold (selectedList comments post_ids) [] (by simp)
  have h3 : (selectedList comments post_ids ++ allRecords []).Perm
      (selectedList comments post_ids) := by
    unfold allRecords
    simp
  exact (h1.trans h2).trans h3

/-- Retention decision of the selection loop (line 167). -/
def retainedB (index : List (String × CommentData)) (roots : List String)
    (cid : String) : Bool :=
  roots.contains cid || (is_in_user_chain index roots cid).getD false

/-- Record as appended by the selection loop: unchanged for roots, depth
recomputed otherwise (lines 171–183). -/
def assignDepth (index : List (String × CommentData)) (roots : List String)
    (kv : String × CommentData) : CommentData :=
  if roots.contains kv.1 then kv.2 else { kv.2 with depth := computeDepth index kv.2 }

theorem selectedList_eq (comments : List PrawComment) (post_ids : List String) :
    selectedList comments post_ids =
      (buildIndex comments post_ids).1.filterMap
        (fun kv =>
          if retainedB (buildIndex comments post_ids).1 (buildIndex comments post_ids).2 kv.1
          then some (assignDepth (buildIndex comments post_ids).1
            (buildIndex comments post_ids).2 kv)
          else none) := rfl

theorem mem_selectedList_iff {comments : List PrawComment} {post_ids : List String}
    {cd : CommentData} :
    cd ∈ selectedList comments post_ids ↔
      ∃ kv ∈ (buildIndex comments post_ids).1,
        retainedB (buildIndex comments post_ids).1 (buildIndex comments post_ids).2 kv.1
          = true ∧
        cd = assignDepth (buildIndex comments post_ids).1
          (buildIndex comments post_ids).2 kv := by
  rw [selectedList_eq, List.mem_filterMap]
  constructor
  · rintro ⟨kv, hkv, hsel⟩
    by_cases h : retainedB (buildIndex comments post_ids).1
        (buildIndex comments post_ids).2 kv.1 = true
    · rw [if_pos h] at hsel
      injection hsel with hsel
      exact ⟨kv, hkv, h, hsel.symm⟩
    · rw [if_neg h] at hsel
      cases hsel
  · rintro ⟨kv, hkv, h, hcd⟩
    refine ⟨kv, hkv, ?_⟩
    rw [if_pos h, hcd]

/-! ### Termination and unfolding of the membership recursion -/

theorem filter_imp_length_le {p q : String → Bool} (l : List String)
    (h : ∀ x, p x = true → q x = true) :
    (l.filter p).length ≤ (l.filter q).length := by
  induction l with
  | nil => exact Nat.le_refl _
  | cons a t ih =>
    rw [List.filter_cons, List.filter_cons]
    by_cases hp : p a = true
    · rw [if_pos hp, if_pos (h a hp)]
      exact Nat.succ_le_succ ih
    · rw [if_neg hp]
      by_cases hq : q a = true
      · rw [if_pos hq]
        exact Nat.le_succ_of_le ih
      · rw [if_neg hq]
        exact ih

theorem filter_not_contains_lt {keys visited : List String} {cid : String}
    (hmem : cid ∈ keys) (hnv : visited.contains cid = false) :
    (keys.filter (fun x => !(cid :: visited).contains x)).length <
      (keys.filter (fun x => !visited.contains x)).length := by
  induction keys with
  | nil => simp at hmem
  | cons a t ih =>
    rw [List.filter_cons, List.filter_cons]
    have hcontkey : ∀ x, ((cid :: visited).contains x) = ((x == cid) || visited.contains x) := by
      intro x
      rfl
    have himp : ∀ x, (!(cid :: visited).contains x) = true → (!visited.contains x) = true := by
      intro x hx
      rw [hcontkey] at hx
      cases hvx : visited.contains x with
      | false => rfl
      | true => rw [hvx, Bool.or_true] at hx; cases hx
    by_cases ha : a = cid
    · have h1 : ((cid :: visited).contains a) = true := by
        rw [hcontkey]
        have : (a == cid) = true := by simp [ha]
        rw [this, Bool.true_or]
      have h2 : (visited.contains a) = false := by rw [ha]; exact hnv
      rw [if_neg (by rw [h1]; simp), if_pos (by rw [h2]; rfl)]
      exact Nat.lt_succ_of_le (filter_imp_length_le t himp)
    · have hsame : ((cid :: visited).contains a) = (visited.contains a) := by
        rw [hcontkey]
        have : (a == cid) = false := by simp [ha]
        rw [this, Bool.false_or]
      rw [hsame]
      have hmem' : cid ∈ t := by
        rcases List.mem_cons.mp hmem with h | h
        · exact absurd h.symm ha
        · exact h
      by_cases hv : (!visited.contains a) = true
      · rw [if_pos hv, if_pos hv]
        exact Nat.succ_lt_succ (ih hmem')
      · rw [if_neg hv, if_neg hv]
        exact ih hmem'

theorem chainAux_eq_visited {index : List (String × CommentData)} {roots : List String}
    {f : Nat} {cid : String} {visited : List String}
    (hv : visited.contains cid = true) :
    chainAux index roots (f + 1) cid visited = some false := by
  unfold chainAux
  rw [if_pos hv]

theorem chainAux_eq_root {index : List (String × CommentData)} {roots : List String}
    {f : Nat} {cid : String} {visited : List String}
    (hv : visited.contains cid = false) (hr : roots.contains cid = true) :
    chainAux index roots (f + 1) cid visited = some true := by
  unfold chainAux
  rw [if_neg (by rw [hv]; simp), if_pos hr]

theorem chainAux_eq_none {index : List (String × CommentData)} {roots : List String}
    {f : Nat} {cid : String} {visited : List String}
    (hv : visited.contains cid = false) (hr : roots.contains cid = false)
    (hl : dictLookup index cid = none) :
    chainAux index roots (f + 1) cid visited = some false := by
  unfold chainAux
  rw [if_neg (by rw [hv]; simp), if_neg (by rw [hr]; simp), hl]

theorem chainAux_eq_t3 {index : List (String × CommentData)} {roots : List String}
    {f : Nat} {cid : String} {visited : List String} {cd : CommentData}
    (hv : visited.contains cid = false) (hr : roots.contains cid = false)
    (hl : dictLookup index cid = some cd) (ht3 : hasPfx ("t3_") cd.parent_id = true) :
    chainAux index roots (f + 1) cid visited = some false := by
  unfold chainAux
  rw [if_neg (by rw [hv]; simp), if_neg (by rw [hr]; simp), hl]
  simp only [if_pos ht3]

theorem chainAux_eq_broken {index : List (String × CommentData)} {roots : List String}
    {f : Nat} {cid : String} {visited : List String} {cd : CommentData}
    (hv : visited.contains cid = false) (hr : roots.contains cid = false)
    (hl : dictLookup index cid = some cd) (ht3 : hasPfx ("t3_") cd.parent_id = false)
    (hps : (dictLookup index (parentExtract cd.parent_id)).isSome = false) :
    chainAux index roots (f + 1) cid visited = some false := by
  unfold chainAux
  rw [if_neg (by rw [hv]; simp), if_neg (by rw [hr]; simp), hl]
  simp only [if_neg (by rw [ht3]; simp : ¬hasPfx ("t3_") cd.parent_id = true)]
  simp only [if_neg (by rw [hps]; simp :
    ¬(dictLookup index (parentExtract cd.parent_id)).isSome = true)]

theorem chainAux_eq_step {index : List (String × CommentData)} {roots : List String}
    {f : Nat} {cid : String} {visited : List String} {cd : CommentData}
    (hv : visited.contains cid = false) (hr : roots.contains cid = false)
    (hl : dictLookup index cid = some cd) (ht3 : hasPfx ("t3_") cd.parent_id = false)
    (hps : (dictLookup index (parentExtract cd.parent_id)).isSome = true) :
    chainAux index roots (f + 1) cid visited =
      chainAux index roots f (parentExtract cd.parent_id) (cid :: visited) := by
  conv_lhs => unfold chainAux
  rw [if_neg (by rw [hv]; simp), if_neg (by rw [hr]; simp), hl]
  simp only [if_neg (by rw [ht3]; simp : ¬hasPfx ("t3_") cd.parent_id = true)]
  simp only [if_pos hps]

theorem chainAux_isSome {index : List (String × CommentData)} {roots : List String} :
    ∀ (fuel : Nat) (cid : String) (visited : List String),
      ((index.map Prod.fst).filter (fun x => !visited.contains x)).length < fuel →
      (chainAux index roots fuel cid visited).isSome = true := by
  intro fuel
  induction fuel with
  | zero => intro cid visited h; exact absurd h (Nat.not_lt_zero _)
  | succ f ih =>
    intro cid visited h
    cases hv : visited.contains cid with
    | true => rw [chainAux_eq_visited hv]; rfl
    | false =>
      cases hr : roots.contains cid with
      | true => rw [chainAux_eq_root hv hr]; rfl
      | false =>
        cases hlook : dictLookup index cid with
        | none => rw [chainAux_eq_none hv hr hlook]; rfl
        | some cd =>
          cases ht3 : hasPfx ("t3_") cd.parent_id with
          | true => rw [chainAux_eq_t3 hv hr hlook ht3]; rfl
          | false =>
            cases hps : (dictLookup index (parentExtract cd.parent_id)).isSome with
            | false => rw [chainAux_eq_broken hv hr hlook ht3 hps]; rfl
            | true =>
              rw [chainAux_eq_step hv hr hlook ht3 hps]
              apply ih
              have hcid : cid ∈ index.map Prod.fst := by
                rw [← dictLookup_isSome_iff, hlook]
                rfl
              have hlt := filter_not_contains_lt hcid hv
              exact Nat.lt_of_lt_of_le hlt (Nat.lt_succ_iff.mp h)

theorem is_in_user_chain_isSome (index : List (String × CommentData))
    (roots : List String) (cid : String) :
    (is_in_user_chain index roots cid).isSome = true := by
  unfold is_in_user_chain
  apply chainAux_isSome
  calc ((index.map Prod.fst).filter (fun x => !([] : List String).contains x)).length
      ≤ (index.map Prod.fst).length := List.length_filter_le _ _
    _ = index.length := List.length_map _ _
    _ < index.length + 1 := Nat.lt_succ_self _

theorem chainAux_mono_fuel {index : List (String × CommentData)} {roots : List String} :
    ∀ {fuel fuel' : Nat} {cid : String} {visited : List String} {b : Bool},
      chainAux index roots fuel cid visited = some b → fuel ≤ fuel' →
      chainAux index roots fuel' cid visited = some b := by
  intro fuel
  induction fuel with
  | zero => intro fuel' cid visited b h; exact absurd h (by simp [chainAux])
  | succ f ih =>
    intro fuel' cid visited b h hle
    obtain ⟨f', rfl⟩ : ∃ f', fuel' = f' + 1 := ⟨fuel' - 1, by omega⟩
    cases hv : visited.contains cid with
    | true => rw [chainAux_eq_visited hv] at h ⊢; exact h
    | false =>
      cases hr : roots.contains cid with
      | true => rw [chainAux_eq_root hv hr] at h ⊢; exact h
      | false =>
        cases hlook : dictLookup index cid with
        | none => rw [chainAux_eq_none hv hr hlook] at h ⊢; exact h
        | some cd =>
          cases ht3 : hasPfx ("t3_") cd.parent_id with
          | true => rw [chainAux_eq_t3 hv hr hlook ht3] at h ⊢; exact h
          | false =>
            cases hps : (dictLookup index (parentExtract cd.parent_id)).isSome with
            | false => rw [chainAux_eq_broken hv hr hlook ht3 hps] at h ⊢; exact h
            | true =>
              rw [chainAux_eq_step hv hr hlook ht3 hps] at h ⊢
              exact ih h (by omega)

theorem chainAux_mono_visited {index : List (String × CommentData)} {roots : List String} :
    ∀ {fuel : Nat} {cid : String} {v v' : List String},
      (∀ x, v'.contains x = true → v.contains x = true) →
      chainAux index roots fuel cid v = some true →
      chainAux index roots fuel cid v' = some true := by
  intro fuel
  induction fuel with
  | zero => intro cid v v' _ h; exact absurd h (by simp [chainAux])
  | succ f ih =>
    intro cid v v' hsub h
    cases hv : v.contains cid with
    | true => rw [chainAux_eq_visited hv] at h; cases h
    | false =>
      have hv' : v'.contains cid = false := by
        cases hc : v'.contains cid with
        | false => rfl
        | true => rw [hsub cid hc] at hv; cases hv
      cases hr : roots.contains cid with
      | true => rw [chainAux_eq_root hv' hr]
      | false =>
        cases hlook : dictLookup index cid with
        | none => rw [chainAux_eq_none hv hr hlook] at h; cases h
        | some cd =>
          cases ht3 : hasPfx ("t3_") cd.parent_id with
          | true => rw [chainAux_eq_t3 hv hr hlook ht3] at h; cases h
          | false =>
            cases hps : (dictLookup index (parentExtract cd.parent_id)).isSome with
            | false => rw [chainAux_eq_broken hv hr hlook ht3 hps] at h; cases h
            | true =>
              rw [chainAux_eq_step hv hr hlook ht3 hps] at h
              rw [chainAux_eq_step hv' hr hlook ht3 hps]
              apply ih ?_ h
              intro x hx
              have hkey : ∀ (y : String) (w : List String),
                  ((y :: w).contains x) = ((x == y) || w.contains x) := by
                intro y w
                rfl
              rw [hkey] at hx ⊢
              rcases Bool.or_eq_true_iff.mp hx with hx | hx
              · rw [hx]
                rfl
              · rw [hsub x hx, Bool.or_true]

/-! ### Rooted parent paths: the graph structure behind the recursion -/

/-- A rooted path from `c`: the (deterministic) list of successor ids the
membership recursion follows from `c` down to a root id. -/
inductive RPath (index : List (String × CommentData)) (roots : List String) :
    String → List String → Prop
  | root (c : String) : roots.contains c = true → RPath index roots c []
  | step (c : String) (cd : CommentData) (rest : List String) :
      roots.contains c = false →
      dictLookup index c = some cd →
      hasPfx ("t3_") cd.parent_id = false →
      (dictLookup index (parentExtract cd.parent_id)).isSome = true →
      RPath index roots (parentExtract cd.parent_id) rest →
      RPath index roots c (parentExtract cd.parent_id :: rest)

theorem chainAux_true_rpath {index : List (String × CommentData)} {roots : List String} :
    ∀ {fuel : Nat} {cid : String} {visited : List String},
      chainAux index roots fuel cid visited = some true →
      ∃ l, RPath index roots cid l := by
  intro fuel
  induction fuel with
  | zero => intro cid visited h; exact absurd h (by simp [chainAux])
  | succ f ih =>
    intro cid visited h
    cases hv : visited.contains cid with
    | true => rw [chainAux_eq_visited hv] at h; cases h
    | false =>
      cases hr : roots.contains cid with
      | true => exact ⟨[], RPath.root cid hr⟩
      | false =>
        cases hlook : dictLookup index cid with
        | none => rw [chainAux_eq_none hv hr hlook] at h; cases h
        | some cd =>
          cases ht3 : hasPfx ("t3_") cd.parent_id with
          | true => rw [chainAux_eq_t3 hv hr hlook ht3] at h; cases h
          | false =>
            cases hps : (dictLookup index (parentExtract cd.parent_id)).isSome with
            | false => rw [chainAux_eq_broken hv hr hlook ht3 hps] at h; cases h
            | true =>
              rw [chainAux_eq_step hv hr hlook ht3 hps] at h
              obtain ⟨l, hl⟩ := ih h
              exact ⟨parentExtract cd.parent_id :: l,
                RPath.step cid cd l hr hlook ht3 hps hl⟩

theorem rpath_unique {index : List (String × CommentData)} {roots : List String}
    {c : String} {l : List String} (h : RPath index roots c l) :
    ∀ {l'}, RPath index roots c l' → l = l' := by
  induction h with
  | root c hr =>
    intro l' h'
    cases h' with
    | root _ _ => rfl
    | step _ cd rest hr' hl' ht3' hps' hrest' => rw [hr'] at hr; cases hr
  | step c cd rest hr hl ht3 hps hrest ih =>
    intro l' h'
    cases h' with
    | root _ hr' => rw [hr'] at hr; cases hr
    | step _ cd' rest' hr' hl' ht3' hps' hrest' =>
      rw [hl] at hl'
      injection hl' with hcd
      subst hcd
      rw [ih hrest']

theorem rpath_suffix {index : List (String × CommentData)} {roots : List String}
    {c : String} {l : List String} (h : RPath index roots c l) :
    ∀ n (hn : n < l.length), RPath index roots (l.get ⟨n, hn⟩) (l.drop (n + 1)) := by
  induction h with
  | root c hr => intro n hn; exact absurd hn (by simp)
  | step c cd rest hr hl ht3 hps hrest ih =>
    intro n hn
    cases n with
    | zero => exact hrest
    | succ m => exact ih m (by simpa using hn)

theorem rpath_extended_suffix {index : List (String × CommentData)} {roots : List String}
    {c : String} {l : List String} (h : RPath index roots c l) :
    ∀ n (hn : n < (c :: l).length),
      RPath index roots ((c :: l).get ⟨n, hn⟩) ((c :: l).drop (n + 1)) := by
  intro n hn
  cases n with
  | zero => exact h
  | succ m => exact rpath_suffix h m (by simpa using hn)

theorem rpath_nodup {index : List (String × CommentData)} {roots : List String}
    {c : String} {l : List String} (h : RPath index roots c l) : (c :: l).Nodup := by
  rw [List.nodup_iff_injective_get]
  intro i j hij
  have hi := rpath_extended_suffix h i.1 i.2
  have hj := rpath_extended_suffix h j.1 j.2
  rw [hij] at hi
  have hdrop : (c :: l).drop (i.1 + 1) = (c :: l).drop (j.1 + 1) := rpath_unique hi hj
  have hlen : (c :: l).length - (i.1 + 1) = (c :: l).length - (j.1 + 1) := by
    rw [← List.length_drop, ← List.length_drop, hdrop]
  have hi2 := i.2
  have hj2 := j.2
  apply Fin.ext
  omega

theorem rpath_subset_keys {index : List (String × CommentData)} {roots : List String}
    (hrk : ∀ x, roots.contains x = true → x ∈ index.map Prod.fst)
    {c : String} {l : List String} (h : RPath index roots c l) :
    ∀ x ∈ c :: l, x ∈ index.map Prod.fst := by
  induction h with
  | root c hr =>
    intro x hx
    rw [List.mem_singleton] at hx
    rw [hx]
    exact hrk c hr
  | step c cd rest hr hl ht3 hps hrest ih =>
    intro x hx
    rcases List.mem_cons.mp hx with hx | hx
    · rw [hx, ← dictLookup_isSome_iff, hl]
      rfl
    · exact ih x hx

theorem rpath_length_le {index : List (String × CommentData)} {roots : List String}
    (hrk : ∀ x, roots.contains x = true → x ∈ index.map Prod.fst)
    {c : String} {l : List String} (h : RPath index roots c l) :
    (c :: l).length ≤ index.length := by
  have hsub : (c :: l) ⊆ index.map Prod.fst := rpath_subset_keys hrk h
  have hperm := (rpath_nodup h).subperm hsub
  calc (c :: l).length ≤ (index.map Prod.fst).length := hperm.length_le
    _ = index.length := List.length_map _ _

theorem rpath_chainAux {index : List (String × CommentData)} {roots : List String}
    {c : String} {l : List String} (h : RPath index roots c l) :
    ∀ (visited : List String) (fuel : Nat),
      (c :: l).Nodup →
      (∀ x ∈ c :: l, visited.contains x = false) →
      (c :: l).length ≤ fuel →
      chainAux index roots fuel c visited = some true := by
  induction h with
  | root c hr =>
    intro visited fuel _ hvis hfuel
    obtain ⟨f, rfl⟩ : ∃ f, fuel = f + 1 := ⟨fuel - 1, by simp at hfuel; omega⟩
    exact chainAux_eq_root (hvis c (by simp)) hr
  | step c cd rest hr hl ht3 hps hrest ih =>
    intro visited fuel hnd hvis hfuel
    obtain ⟨f, rfl⟩ : ∃ f, fuel = f + 1 := ⟨fuel - 1, by simp at hfuel; omega⟩
    rw [chainAux_eq_step (hvis c (by simp)) hr hl ht3 hps]
    apply ih (c :: visited) f
    · exact (List.nodup_cons.mp hnd).2
    · intro x hx
      have hkey : ((c :: visited).contains x) = ((x == c) || visited.contains x) := rfl
      rw [hkey]
      have hxc : (x == c) = false := by
        have hne : x ≠ c := by
          intro he
          apply (List.nodup_cons.mp hnd).1
          rw [← he]
          exact hx
        simp [hne]
      rw [hxc, Bool.false_or]
      exact hvis x (List.mem_cons_of_mem _ hx)
    · have : (c :: parentExtract cd.parent_id :: rest).length ≤ f + 1 := hfuel
      simp only [List.length_cons] at this ⊢
      omega

theorem rpath_is_in_user_chain {index : List (String × CommentData)} {roots : List String}
    (hrk : ∀ x, roots.contains x = true → x ∈ index.map Prod.fst)
    {c : String} {l : List String} (h : RPath index roots c l) :
    is_in_user_chain index roots c = some true := by
  unfold is_in_user_chain
  apply rpath_chainAux h [] (index.length + 1) (rpath_nodup h)
  · intro x _
    rfl
  · exact Nat.le_succ_of_le (rpath_length_le hrk h)

theorem is_in_user_chain_true_iff {index : List (String × CommentData)}
    {roots : List String}
    (hrk : ∀ x, roots.contains x = true → x ∈ index.map Prod.fst) (c : String) :
    is_in_user_chain index roots c = some true ↔ ∃ l, RPath index roots c l := by
  constructor
  · intro h
    exact chainAux_true_rpath h
  · rintro ⟨l, hl⟩
    exact rpath_is_in_user_chain hrk hl

/-! ### The index and roots on distinct-id inputs -/

theorem hasPfx_t1_not_t3 {s : String} (h : hasPfx ("t1_") s = true) :
    hasPfx ("t3_") s = false := by
  cases h3 : hasPfx ("t3_") s with
  | false => rfl
  | true => rw [hasPfx_t3_not_t1 h3] at h; cases h

theorem mem_dictLookup {d : List (String × CommentData)} {k : String} {v : CommentData}
    (hnd : (d.map Prod.fst).Nodup) (h : (k, v) ∈ d) : dictLookup d k = some v := by
  induction d with
  | nil => simp at h
  | cons kv t ih =>
    rw [List.map_cons, List.nodup_cons] at hnd
    rcases List.mem_cons.mp h with hh | hh
    · rw [← hh, dictLookup_cons, if_pos rfl]
    · rw [dictLookup_cons]
      have hk : kv.1 ≠ k := by
        intro he
        apply hnd.1
        rw [he]
        exact List.mem_map.mpr ⟨(k, v), hh, rfl⟩
      rw [if_neg hk]
      exact ih hnd.2 hh

theorem postFiltered_ids_nodup {comments : List PrawComment} {post_ids : List String}
    (hN : (comments.map PrawComment.id).Nodup) :
    ((postFiltered comments post_ids).map PrawComment.id).Nodup := by
  apply List.Nodup.sublist ?_ hN
  exact List.Sublist.map _ (List.filter_sublist _)

theorem plainIndex_keys_nodup {comments : List PrawComment} {post_ids : List String}
    (hN : (comments.map PrawComment.id).Nodup) :
    ((plainIndex comments post_ids).map Prod.fst).Nodup := by
  rw [plainIndex_keys]
  exact postFiltered_ids_nodup hN

theorem plainIndex_lookup_of_mem {comments : List PrawComment} {post_ids : List String}
    {c : PrawComment} (hN : (comments.map PrawComment.id).Nodup)
    (hc : c ∈ postFiltered comments post_ids) :
    dictLookup (plainIndex comments post_ids) c.id = some (mkCommentData c) := by
  apply mem_dictLookup (plainIndex_keys_nodup hN)
  exact List.mem_map.mpr ⟨c, hc, rfl⟩

theorem plainIndex_lookup_inv {comments : List PrawComment} {post_ids : List String}
    {k : String} {cd : CommentData}
    (h : dictLookup (plainIndex comments post_ids) k = some cd) :
    ∃ c ∈ postFiltered comments post_ids, c.id = k ∧ cd = mkCommentData c := by
  have hmem := dictLookup_mem h
  obtain ⟨c, hc, heq⟩ := List.mem_map.mp hmem
  refine ⟨c, hc, ?_, ?_⟩
  · exact (congrArg Prod.fst heq)
  · exact (congrArg Prod.snd heq).symm

theorem plainRoots_contains_iff {comments : List PrawComment} {post_ids : List String}
    {r : String} :
    (plainRoots comments post_ids).contains r = true ↔
      ∃ c ∈ postFiltered comments post_ids,
        c.id = r ∧ hasPfx ("t3_") c.parent_id = true := by
  rw [List.elem_iff]
  unfold plainRoots
  rw [List.mem_map]
  constructor
  · rintro ⟨c, hc, hid⟩
    rw [List.mem_filter] at hc
    exact ⟨c, hc.1, hid, hc.2⟩
  · rintro ⟨c, hc, hid, ht3⟩
    exact ⟨c, List.mem_filter.mpr ⟨hc, ht3⟩, hid⟩

theorem plainRoots_subset_keys {comments : List PrawComment} {post_ids : List String} :
    ∀ x, (plainRoots comments post_ids).contains x = true →
      x ∈ (plainIndex comments post_ids).map Prod.fst := by
  intro x hx
  rw [plainIndex_keys]
  obtain ⟨c, hc, hid, _⟩ := plainRoots_contains_iff.mp hx
  exact List.mem_map.mpr ⟨c, hc, hid⟩

/-! ### Specification-level chain membership -/

/-- Chain membership as the specification words it: a comment is in a user
chain iff its parent is a submission reference (top-level) or its parent is
another comment of the collection that is itself transitively in a chain.
The collection here is the post-filtered one, matching the code, which drops
off-target records before indexing. -/
inductive InUserChain (l : List PrawComment) : String → Prop
  | top (c : PrawComment) : c ∈ l → hasPfx ("t3_") c.parent_id = true →
      InUserChain l c.id
  | link (c p : PrawComment) : c ∈ l → hasPfx ("t3_") c.parent_id = false →
      p ∈ l → p.id = parentExtract c.parent_id → InUserChain l p.id →
      InUserChain l c.id

theorem inUserChain_rpath {comments : List PrawComment} {post_ids : List String}
    (hN : (comments.map PrawComment.id).Nodup) {cid : String}
    (h : InUserChain (postFiltered comments post_ids) cid) :
    ∃ l, RPath (plainIndex comments post_ids) (plainRoots comments post_ids) cid l := by
  induction h with
  | top c hc ht3 =>
    refine ⟨[], RPath.root c.id ?_⟩
    exact plainRoots_contains_iff.mpr ⟨c, hc, rfl, ht3⟩
  | link c p hc ht3 hp hpid hchain ih =>
    by_cases hr : (plainRoots comments post_ids).contains c.id = true
    · exact ⟨[], RPath.root c.id hr⟩
    · obtain ⟨l, hl⟩ := ih
      have hlook : dictLookup (plainIndex comments post_ids) c.id =
          some (mkCommentData c) := plainIndex_lookup_of_mem hN hc
      have hps : (dictLookup (plainIndex comments post_ids)
          (parentExtract (mkCommentData c).parent_id)).isSome = true := by
        have hpe : (mkCommentData c).parent_id = c.parent_id := rfl
        rw [hpe, ← hpid]
        apply dictLookup_isSome_iff.mpr
        rw [plainIndex_keys]
        exact List.mem_map.mpr ⟨p, hp, rfl⟩
      have hl' : RPath (plainIndex comments post_ids) (plainRoots comments post_ids)
          (parentExtract (mkCommentData c).parent_id) l := by
        have : (mkCommentData c).parent_id = c.parent_id := rfl
        rw [this, ← hpid]
        exact hl
      exact ⟨parentExtract (mkCommentData c).parent_id :: l,
        RPath.step c.id (mkCommentData c) l (eq_false_of_ne_true hr) hlook ht3 hps hl'⟩

theorem rpath_inUserChain {comments : List PrawComment} {post_ids : List String}
    {cid : String} {l : List String}
    (h : RPath (plainIndex comments post_ids) (plainRoots comments post_ids) cid l) :
    InUserChain (postFiltered comments post_ids) cid := by
  induction h with
  | root c hr =>
    obtain ⟨c0, hc0, hid, ht3⟩ := plainRoots_contains_iff.mp hr
    rw [← hid]
    exact InUserChain.top c0 hc0 ht3
  | step c cd rest hr hlook ht3 hps hrest ih =>
    obtain ⟨c0, hc0, hid, hcd⟩ := plainIndex_lookup_inv hlook
    have hcdpar : cd.parent_id = c0.parent_id := by rw [hcd]; rfl
    have hpsk : parentExtract c0.parent_id ∈
        (plainIndex comments post_ids).map Prod.fst := by
      rw [← hcdpar]
      rw [← dictLookup_isSome_iff]
      exact hps
    rw [plainIndex_keys] at hpsk
    obtain ⟨p0, hp0, hpid⟩ := List.mem_map.mp hpsk
    rw [← hid]
    refine InUserChain.link c0 p0 hc0 (by rw [← hcdpar]; exact ht3) hp0 hpid ?_
    rw [hpid]
    rw [← hcdpar]
    exact ih

/-! ### Membership in the final output -/

theorem index_id_eq_key {comments : List PrawComment} {post_ids : List String} :
    ∀ kv ∈ (buildIndex comments post_ids).1, kv.2.id = kv.1 := by
  intro kv hkv
  obtain ⟨c, _, _, hk, hcd⟩ := (buildIndex_inv comments post_ids).1 kv hkv
  rw [hk, hcd]
  rfl

theorem assignDepth_id (index : List (String × CommentData)) (roots : List String)
    (kv : String × CommentData) : (assignDepth index roots kv).id = kv.2.id := by
  unfold assignDepth
  by_cases h : roots.contains kv.1
  · rw [if_pos h]
  · rw [if_neg h]

theorem getD_false_eq_true {o : Option Bool} (h : o.getD false = true) : o = some true := by
  cases o with
  | none => cases h
  | some b => cases b with
    | false => cases h
    | true => rfl

/-- A comment id appears somewhere in the final output mapping. -/
def appearsIn (comments : List PrawComment) (post_ids : List String)
    (cid : String) : Prop :=
  ∃ cd ∈ allRecords (get_user_comments_on_posts comments post_ids), cd.id = cid

theorem appears_iff_retained {comments : List PrawComment} {post_ids : List String}
    {cid : String} :
    appearsIn comments post_ids cid ↔
      cid ∈ (buildIndex comments post_ids).1.map Prod.fst ∧
        retainedB (buildIndex comments post_ids).1 (buildIndex comments post_ids).2 cid
          = true := by
  constructor
  · rintro ⟨cd, hcd, hid⟩
    have hsel : cd ∈ selectedList comments post_ids :=
      ((allRecords_output_perm comments post_ids).mem_iff).mp hcd
    obtain ⟨kv, hkv, hret, hcdeq⟩ := mem_selectedList_iff.mp hsel
    have hkid : cd.id = kv.1 := by
      rw [hcdeq, assignDepth_id]
      exact index_id_eq_key kv hkv
    have hcid : kv.1 = cid := by rw [← hkid, hid]
    constructor
    · rw [← hcid]
      exact List.mem_map.mpr ⟨kv, hkv, rfl⟩
    · rw [← hcid]
      exact hret
  · rintro ⟨hmem, hret⟩
    obtain ⟨kv, hkv, hk⟩ := List.mem_map.mp hmem
    refine ⟨assignDepth (buildIndex comments post_ids).1 (buildIndex comments post_ids).2 kv,
      ?_, ?_⟩
    · apply ((allRecords_output_perm comments post_ids).mem_iff).mpr
      apply mem_selectedList_iff.mpr
      exact ⟨kv, hkv, by rw [hk]; exact hret, rfl⟩
    · rw [assignDepth_id, index_id_eq_key kv hkv, hk]

theorem appears_iff_inUserChain {comments : List PrawComment} {post_ids : List String}
    (hN : (comments.map PrawComment.id).Nodup) (cid : String) :
    appearsIn comments post_ids cid ↔
      InUserChain (postFiltered comments post_ids) cid := by
  have hbi := buildIndex_eq comments post_ids hN
  rw [appears_iff_retained, hbi]
  unfold retainedB
  constructor
  · rintro ⟨hmem, hret⟩
    rcases Bool.or_eq_true_iff.mp hret with hroot | hchain
    · obtain ⟨c, hc, hid, ht3⟩ := plainRoots_contains_iff.mp hroot
      rw [← hid]
      exact InUserChain.top c hc ht3
    · have hchain' := getD_false_eq_true hchain
      obtain ⟨l, hl⟩ := chainAux_true_rpath hchain'
      exact rpath_inUserChain hl
  · intro h
    obtain ⟨l, hl⟩ := inUserChain_rpath hN h
    have hchain := rpath_is_in_user_chain plainRoots_subset_keys hl
    constructor
    · exact rpath_subset_keys plainRoots_subset_keys hl cid (by simp)
    · rw [hchain]
      simp

/-! ### The depth walk -/

theorem depthLoop_eq_stop {index : List (String × CommentData)} {f : Nat}
    {cur : String} {d : Nat} (h : hasPfx ("t1_") cur = false) :
    depthLoop index (f + 1) cur d = some d := by
  unfold depthLoop
  rw [if_neg (by rw [h]; simp)]

theorem depthLoop_eq_dangling {index : List (String × CommentData)} {f : Nat}
    {cur : String} {d : Nat} (h : hasPfx ("t1_") cur = true)
    (hl : dictLookup index (strDrop cur 3) = none) :
    depthLoop index (f + 1) cur d = some (d + 1) := by
  unfold depthLoop
  rw [if_pos h, hl]

theorem depthLoop_eq_step {index : List (String × CommentData)} {f : Nat}
    {cur : String} {d : Nat} {cd : CommentData} (h : hasPfx ("t1_") cur = true)
    (hl : dictLookup index (strDrop cur 3) = some cd) :
    depthLoop index (f + 1) cur d = depthLoop index f cd.parent_id (d + 1) := by
  conv_lhs => unfold depthLoop
  rw [if_pos h, hl]

theorem depthLoop_shift {index : List (String × CommentData)} :
    ∀ (f : Nat) (cur : String) (d : Nat),
      depthLoop index f cur d = (depthLoop index f cur 0).map (fun n => n + d) := by
  intro f
  induction f with
  | zero => intro cur d; rfl
  | succ f2 ih =>
    intro cur d
    cases ht1 : hasPfx ("t1_") cur with
    | false => rw [depthLoop_eq_stop ht1, depthLoop_eq_stop ht1]; simp
    | true =>
      cases hl : dictLookup index (strDrop cur 3) with
      | none =>
        rw [depthLoop_eq_dangling ht1 hl, depthLoop_eq_dangling ht1 hl]
        simp [Nat.add_comm]
      | some cd =>
        rw [depthLoop_eq_step ht1 hl, depthLoop_eq_step ht1 hl, ih cd.parent_id (d + 1),
          ih cd.parent_id 1]
        cases depthLoop index f2 cd.parent_id 0 with
        | none => rfl
        | some n => simp; omega

theorem depthLoop_mono_fuel {index : List (String × CommentData)} :
    ∀ {f f' : Nat} {cur : String} {d n : Nat},
      depthLoop index f cur d = some n → f ≤ f' → depthLoop index f' cur d = some n := by
  intro f
  induction f with
  | zero => intro f' cur d n h; exact absurd h (by simp [depthLoop])
  | succ f2 ih =>
    intro f' cur d n h hle
    obtain ⟨f2', rfl⟩ : ∃ g, f' = g + 1 := ⟨f' - 1, by omega⟩
    cases ht1 : hasPfx ("t1_") cur with
    | false => rw [depthLoop_eq_stop ht1] at h ⊢; exact h
    | true =>
      cases hl : dictLookup index (strDrop cur 3) with
      | none => rw [depthLoop_eq_dangling ht1 hl] at h ⊢; exact h
      | some cd =>
        rw [depthLoop_eq_step ht1 hl] at h ⊢
        exact ih h (by omega)

theorem depthLoop_le {index : List (String × CommentData)} :
    ∀ {f : Nat} {cur : String} {d n : Nat},
      depthLoop index f cur d = some n → d ≤ n := by
  intro f
  induction f with
  | zero => intro cur d n h; exact absurd h (by simp [depthLoop])
  | succ f2 ih =>
    intro cur d n h
    cases ht1 : hasPfx ("t1_") cur with
    | false =>
      rw [depthLoop_eq_stop ht1] at h
      injection h with h
      omega
    | true =>
      cases hl : dictLookup index (strDrop cur 3) with
      | none =>
        rw [depthLoop_eq_dangling ht1 hl] at h
        injection h with h
        omega
      | some cd =>
        rw [depthLoop_eq_step ht1 hl] at h
        have := ih h
        omega

/-- In a well-formed index, the final record of a root id is itself
top-level.  This holds whenever input ids are distinct; a duplicated id can
break it (a later record overwrites a root's entry while the root id stays
in `top_level_comment_ids`). -/
def RootsGood (index : List (String × CommentData)) (roots : List String) : Prop :=
  ∀ r cd, roots.contains r = true → dictLookup index r = some cd →
    hasPfx ("t3_") cd.parent_id = true

theorem rootsGood_plain {comments : List PrawComment} {post_ids : List String}
    (hN : (comments.map PrawComment.id).Nodup) :
    RootsGood (plainIndex comments post_ids) (plainRoots comments post_ids) := by
  intro r cd hr hl
  obtain ⟨c, hc, hid, ht3⟩ := plainRoots_contains_iff.mp hr
  have hl2 : dictLookup (plainIndex comments post_ids) c.id = some (mkCommentData c) :=
    plainIndex_lookup_of_mem hN hc
  rw [hid] at hl2
  rw [hl] at hl2
  injection hl2 with hl2
  rw [hl2]
  exact ht3

theorem chain_depth_some {index : List (String × CommentData)} {roots : List String}
    (hrg : RootsGood index roots) :
    ∀ {fuel : Nat} {cid : String} {visited : List String} {cd : CommentData} {d : Nat},
      chainAux index roots fuel cid visited = some true →
      roots.contains cid = false →
      dictLookup index cid = some cd →
      ∃ n, depthLoop index fuel cd.parent_id d = some n := by
  intro fuel
  induction fuel with
  | zero => intro cid visited cd d h _ _; exact absurd h (by simp [chainAux])
  | succ f ih =>
    intro cid visited cd d h hr hlook
    cases hv : visited.contains cid with
    | true => rw [chainAux_eq_visited hv] at h; cases h
    | false =>
      cases ht3 : hasPfx ("t3_") cd.parent_id with
      | true => rw [chainAux_eq_t3 hv hr hlook ht3] at h; cases h
      | false =>
        cases ht1 : hasPfx ("t1_") cd.parent_id with
        | false => exact ⟨d, depthLoop_eq_stop ht1⟩
        | true =>
          have hpe : parentExtract cd.parent_id = strDrop cd.parent_id 3 := by
            unfold parentExtract
            rw [if_pos ht1]
          cases hps : (dictLookup index (parentExtract cd.parent_id)).isSome with
          | false => rw [chainAux_eq_broken hv hr hlook ht3 hps] at h; cases h
          | true =>
            rw [chainAux_eq_step hv hr hlook ht3 hps] at h
            obtain ⟨cd2, hcd2⟩ := Option.isSome_iff_exists.mp hps
            have hcd2' : dictLookup index (strDrop cd.parent_id 3) = some cd2 := by
              rw [← hpe]
              exact hcd2
            rw [depthLoop_eq_step ht1 hcd2']
            cases hroot2 : roots.contains (parentExtract cd.parent_id) with
            | true =>
              have ht3' := hrg _ _ hroot2 hcd2
              have ht1' := hasPfx_t3_not_t1 ht3'
              obtain ⟨f2, rfl⟩ : ∃ g, f = g + 1 := by
                cases f with
                | zero => rw [show chainAux index roots 0 (parentExtract cd.parent_id)
                    (cid :: visited) = none from rfl] at h; cases h
                | succ g => exact ⟨g, rfl⟩
              exact ⟨d + 1, depthLoop_eq_stop ht1'⟩
            | false => exact ih h hroot2 hcd2

/-! ### Sortedness and stability of the per-post sort -/

theorem sortByCreated_sorted (l : List CommentData) :
    List.Sorted (fun a b : CommentData => a.created_utc ≤ b.created_utc)
      (sortByCreated l) := by
  haveI : IsTotal CommentData (fun a b : CommentData => a.created_utc ≤ b.created_utc) :=
    ⟨fun a b => Int.le_total _ _⟩
  haveI : IsTrans CommentData (fun a b : CommentData => a.created_utc ≤ b.created_utc) :=
    ⟨fun _ _ _ hab hbc => le_trans hab hbc⟩
  exact List.sorted_insertionSort _ l

theorem filter_orderedInsert (k : Int) (x : CommentData) (l : List CommentData) :
    (List.orderedInsert (fun a b : CommentData => a.created_utc ≤ b.created_utc) x
        l).filter (fun cd => cd.created_utc == k) =
      (x :: l).filter (fun cd => cd.created_utc == k) := by
  induction l with
  | nil => rfl
  | cons b t ih =>
    by_cases hr : x.created_utc ≤ b.created_utc
    · rw [List.orderedInsert, if_pos hr]
    · rw [List.orderedInsert, if_neg hr]
      have hlt : b.created_utc < x.created_utc := lt_of_not_le hr
      by_cases hbk : (b.created_utc == k) = true
      · by_cases hxk : (x.created_utc == k) = true
        · exfalso
          rw [beq_iff_eq] at hbk hxk
          rw [hbk] at hlt
          rw [hxk] at hlt
          exact lt_irrefl _ hlt
        · simp [List.filter_cons, hbk, hxk, ih]
      · by_cases hxk : (x.created_utc == k) = true
        · simp [List.filter_cons, hbk, hxk, ih]
        · simp [List.filter_cons, hbk, hxk, ih]

theorem sortByCreated_filter (l : List CommentData) (k : Int) :
    (sortByCreated l).filter (fun cd => cd.created_utc == k) =
      l.filter (fun cd => cd.created_utc == k) := by
  induction l with
  | nil => rfl
  | cons x t ih =>
    unfold sortByCreated at ih ⊢
    rw [List.insertionSort, filter_orderedInsert, List.filter_cons, List.filter_cons, ih]

theorem lookupG_map_sort (m : List (String × List CommentData)) (p : String) :
    lookupG (m.map (fun kv => (kv.1, sortByCreated kv.2))) p =
      (lookupG m p).map sortByCreated := by
  induction m with
  | nil => rfl
  | cons kv t ih =>
    rw [List.map_cons, lookupG_cons, lookupG_cons]
    by_cases hk : kv.1 = p
    · rw [if_pos hk, if_pos hk]
      rfl
    · rw [if_neg hk, if_neg hk]
      exact ih

/-! ### Shape of retained output records on distinct-id inputs -/

/-- Record with its depth overwritten by the depth walk. -/
def mkWithDepth (c : PrawComment) (n : Nat) : CommentData :=
  { mkCommentData c with depth := n }

/-- An existing record with its depth overwritten. -/
def mkWithDepth2 (cd : CommentData) (n : Nat) : CommentData :=
  { cd with depth := n }

theorem postFiltered_id_inj {comments : List PrawComment} {post_ids : List String}
    (hN : (comments.map PrawComment.id).Nodup) {c c' : PrawComment}
    (hc : c ∈ postFiltered comments post_ids) (hc' : c' ∈ postFiltered comments post_ids)
    (h : c.id = c'.id) : c = c' :=
  List.inj_on_of_nodup_map (postFiltered_ids_nodup hN) hc hc' h

theorem output_record_analysis {comments : List PrawComment} {post_ids : List String}
    (hN : (comments.map PrawComment.id).Nodup) :
    ∀ cd ∈ allRecords (get_user_comments_on_posts comments post_ids),
      ∃ c ∈ postFiltered comments post_ids,
        (hasPfx ("t3_") c.parent_id = true ∧ cd = mkCommentData c) ∨
        (hasPfx ("t3_") c.parent_id = false ∧
          is_in_user_chain (plainIndex comments post_ids)
            (plainRoots comments post_ids) c.id = some true ∧
          ∃ n, depthLoop (plainIndex comments post_ids)
              ((plainIndex comments post_ids).length + 1) c.parent_id 0 = some n ∧
            cd = mkWithDepth c n) := by
  intro cd hcd
  have hsel : cd ∈ selectedList comments post_ids :=
    ((allRecords_output_perm comments post_ids).mem_iff).mp hcd
  obtain ⟨kv, hkv0, hret0, hcdeq0⟩ := mem_selectedList_iff.mp hsel
  have hbi := buildIndex_eq comments post_ids hN
  rw [hbi] at hkv0 hret0 hcdeq0
  have hkv : kv ∈ plainIndex comments post_ids := hkv0
  have hret : retainedB (plainIndex comments post_ids) (plainRoots comments post_ids)
      kv.1 = true := hret0
  have hcdeq : cd = assignDepth (plainIndex comments post_ids)
      (plainRoots comments post_ids) kv := hcdeq0
  obtain ⟨c, hc, hkveq⟩ := List.mem_map.mp hkv
  refine ⟨c, hc, ?_⟩
  have hk1 : kv.1 = c.id := by rw [← hkveq]
  have hk2 : kv.2 = mkCommentData c := by rw [← hkveq]
  cases hroot : (plainRoots comments post_ids).contains c.id with
  | true =>
    left
    obtain ⟨c', hc', hid', ht3'⟩ := plainRoots_contains_iff.mp hroot
    have hcc : c' = c := postFiltered_id_inj hN hc' hc hid'
    refine ⟨by rw [← hcc]; exact ht3', ?_⟩
    rw [hcdeq]
    unfold assignDepth
    rw [if_pos (by rw [hk1]; exact hroot), hk2]
  | false =>
    right
    have hchain : is_in_user_chain (plainIndex comments post_ids)
        (plainRoots comments post_ids) c.id = some true := by
      unfold retainedB at hret
      rw [hk1, hroot] at hret
      rw [Bool.false_or] at hret
      exact getD_false_eq_true hret
    have ht3 : hasPfx ("t3_") c.parent_id = false := by
      cases h3 : hasPfx ("t3_") c.parent_id with
      | false => rfl
      | true =>
        rw [plainRoots_contains_iff.mpr ⟨c, hc, rfl, h3⟩] at hroot
        cases hroot
    have hlook : dictLookup (plainIndex comments post_ids) c.id =
        some (mkCommentData c) := plainIndex_lookup_of_mem hN hc
    have hds : ∃ n, depthLoop (plainIndex comments post_ids)
        ((plainIndex comments post_ids).length + 1)
        (mkCommentData c).parent_id 0 = some n :=
      chain_depth_some (rootsGood_plain hN) hchain hroot hlook
    obtain ⟨n, hn⟩ := hds
    refine ⟨ht3, hchain, n, hn, ?_⟩
    rw [hcdeq]
    unfold assignDepth
    rw [if_neg (by rw [hk1, hroot]; simp), hk2]
    unfold mkWithDepth computeDepth
    rw [show depthLoop (plainIndex comments post_ids)
        ((plainIndex comments post_ids).length + 1) (mkCommentData c).parent_id 0
        = some n from hn]
    rfl

theorem depthLoop_t1_ge {index : List (String × CommentData)} {f : Nat} {cur : String}
    {d n : Nat} (h : depthLoop index f cur d = some n) (ht1 : hasPfx ("t1_") cur = true) :
    d + 1 ≤ n := by
  cases f with
  | zero => exact absurd h (by simp [depthLoop])
  | succ f2 =>
    cases hl : dictLookup index (strDrop cur 3) with
    | none =>
      rw [depthLoop_eq_dangling ht1 hl] at h
      injection h with h
      omega
    | some cd =>
      rw [depthLoop_eq_step ht1 hl] at h
      exact depthLoop_le h

theorem plainIndex_mem_id {comments : List PrawComment} {post_ids : List String}
    {kv : String × CommentData} (h : kv ∈ plainIndex comments post_ids) :
    kv.2.id = kv.1 := by
  obtain ⟨c, _, heq⟩ := List.mem_map.mp h
  rw [← heq]
  rfl

theorem count_le_count_map_id (l : List CommentData) (cd : CommentData) :
    l.count cd ≤ (l.map (fun x => x.id)).count cd.id := by
  induction l with
  | nil => exact Nat.le_refl _
  | cons x t ih =>
    rw [List.map_cons, List.count_cons, List.count_cons]
    by_cases hx : x = cd
    · have : (x.id == cd.id) = true := by rw [hx]; simp
      simp only [hx, this]
      simp only [beq_self_eq_true, if_true]
      omega
    · have hle : (if x == cd then 1 else 0) = 0 := by simp [hx]
      rw [hle]
      by_cases hid : (x.id == cd.id) = true
      · rw [if_pos hid]
        omega
      · rw [if_neg hid]
        omega

theorem filterMap_assign_ids_sublist (index : List (String × CommentData))
    (roots : List String) :
    ∀ (l : List (String × CommentData)), (∀ kv ∈ l, kv.2.id = kv.1) →
      ((l.filterMap (fun kv => if retainedB index roots kv.1 then
          some (assignDepth index roots kv) else none)).map (fun cd => cd.id)).Sublist
        (l.map Prod.fst) := by
  intro l
  induction l with
  | nil => intro _; exact List.Sublist.refl _
  | cons kv t ih =>
    intro hinv
    rw [List.filterMap_cons, List.map_cons]
    by_cases h : retainedB index roots kv.1 = true
    · rw [if_pos h, List.map_cons]
      have hid : (assignDepth index roots kv).id = kv.1 := by
        rw [assignDepth_id]
        exact hinv kv (by simp)
      rw [hid]
      exact List.Sublist.cons₂ _ (ih (fun kv2 h2 => hinv kv2 (List.mem_cons_of_mem _ h2)))
    · rw [if_neg h]
      exact List.Sublist.cons _ (ih (fun kv2 h2 => hinv kv2 (List.mem_cons_of_mem _ h2)))

theorem selectedList_ids_sublist (comments : List PrawComment) (post_ids : List String) :
    ((selectedList comments post_ids).map (fun cd => cd.id)).Sublist
      ((buildIndex comments post_ids).1.map Prod.fst) := by
  rw [selectedList_eq]
  exact filterMap_assign_ids_sublist (buildIndex comments post_ids).1
    (buildIndex comments post_ids).2 (buildIndex comments post_ids).1 index_id_eq_key

theorem output_ids_nodup (comments : List PrawComment) (post_ids : List String) :
    ((allRecords (get_user_comments_on_posts comments post_ids)).map
      (fun cd => cd.id)).Nodup := by
  have hperm := (allRecords_output_perm comments post_ids).map (fun cd => cd.id)
  apply hperm.nodup_iff.mpr
  apply List.Nodup.sublist (selectedList_ids_sublist comments post_ids)
  exact (buildIndex_inv comments post_ids).2.1

/-! ### Concrete inputs used in scenarios, witnesses and counterexamples -/

/-- Scenario 2 top-level comment `C1` on post `P1`. -/
def scnTop : PrawComment :=
  { id := "c1", body := "b1", score := 3, created_utc := 10, permalink := "/r/x/1"
    parent_id := "t3_P1", is_submitter := true, submission_id := "P1" }

/-- Scenario 2 reply `C2` whose parent is `C1`. -/
def scnReply : PrawComment :=
  { id := "c2", body := "b2", score := 4, created_utc := 20, permalink := "/r/x/2"
    parent_id := "t1_c1", is_submitter := false, submission_id := "P1" }

/-- Top-level comment whose post is not targeted. -/
def offTop : PrawComment :=
  { id := "a0", body := "b", score := 0, created_utc := 1, permalink := "/p"
    parent_id := "t3_Q1", is_submitter := false, submission_id := "Q1" }

/-- A root comment, target of an untagged parent reference. -/
def untagRoot : PrawComment :=
  { id := "r0", body := "b", score := 0, created_utc := 1, permalink := "/p"
    parent_id := "t3_P1", is_submitter := false, submission_id := "P1" }

/-- Comment whose parent reference is the bare string `r0`, with no
`t1_`/`t3_` tag. -/
def untagChild : PrawComment :=
  { id := "x0", body := "b", score := 0, created_utc := 2, permalink := "/p"
    parent_id := "r0", is_submitter := false, submission_id := "P1" }

/-- First record of the duplicated id `a1`: top-level. -/
def dupTop : PrawComment :=
  { id := "a1", body := "b", score := 0, created_utc := 1, permalink := "/p"
    parent_id := "t3_P1", is_submitter := false, submission_id := "P1" }

/-- Second record of the duplicated id `a1`: self-referential parent; it
overwrites the index entry while `a1` stays in the root set. -/
def dupOver : PrawComment :=
  { id := "a1", body := "b2", score := 0, created_utc := 2, permalink := "/p"
    parent_id := "t1_a1", is_submitter := false, submission_id := "P1" }

/-- Child of the duplicated id. -/
def dupChild : PrawComment :=
  { id := "b1", body := "b3", score := 0, created_utc := 3, permalink := "/p"
    parent_id := "t1_a1", is_submitter := false, submission_id := "P1" }

/-- Input on which the source's depth walk runs forever. -/
def dupComments : List PrawComment := [dupTop, dupOver, dupChild]

/-- Index built from `dupComments`. -/
def dupIndex : List (String × CommentData) := (buildIndex dupComments (["P1"])).1

/-- Root-id set built from `dupComments`. -/
def dupRoots : List String := (buildIndex dupComments (["P1"])).2

/-- Two comments forming a parent cycle, neither top-level. -/
def cycUp : PrawComment :=
  { id := "ca", body := "b", score := 0, created_utc := 1, permalink := "/p"
    parent_id := "t1_cb", is_submitter := false, submission_id := "P1" }

/-- Second comment of the parent cycle. -/
def cycDown : PrawComment :=
  { id := "cb", body := "b", score := 0, created_utc := 2, permalink := "/p"
    parent_id := "t1_ca", is_submitter := false, submission_id := "P1" }

/-- Comment whose parent reference is itself. -/
def selfLoop : PrawComment :=
  { id := "sa", body := "b", score := 0, created_utc := 1, permalink := "/p"
    parent_id := "t1_sa", is_submitter := false, submission_id := "P1" }

/-- Comment whose parent id is absent from the collection. -/
def dangRec : PrawComment :=
  { id := "d1", body := "b", score := 0, created_utc := 1, permalink := "/p"
    parent_id := "t1_zz", is_submitter := false, submission_id := "P1" }

/-- Stale-root pair: first record of `e1` is top-level. -/
def staleTop : PrawComment :=
  { id := "e1", body := "b", score := 0, created_utc := 1, permalink := "/p"
    parent_id := "t3_P1", is_submitter := false, submission_id := "P1" }

/-- Stale-root pair: second record of `e1` points at the missing comment
`q1`, overwriting the index entry while `e1` stays a root. -/
def staleOver : PrawComment :=
  { id := "e1", body := "b", score := 0, created_utc := 2, permalink := "/p"
    parent_id := "t1_q1", is_submitter := false, submission_id := "P1" }

/-- On `dupComments` the depth walk loops forever from `t1_a1`: no amount of
fuel makes it stop, exactly as the source's unguarded `while` loop would
never exit. -/
theorem depthLoop_dup_none : ∀ (f d : Nat), depthLoop dupIndex f ("t1_a1") d = none := by
  intro f
  induction f with
  | zero => intro d; rfl
  | succ g ih =>
    intro d
    have ht1 : hasPfx ("t1_") ("t1_a1") = true := by decide
    have hl : dictLookup dupIndex (strDrop ("t1_a1") 3) = some (mkCommentData dupOver) := by
      decide
    rw [depthLoop_eq_step ht1 hl]
    have hpe : (mkCommentData dupOver).parent_id = ("t1_a1") := rfl
    rw [hpe]
    exact ih (d + 1)

/-! ### Last bookkeeping helpers -/

theorem mem_allRecords {m : List (String × List CommentData)}
    {pl : String × List CommentData} {cd : CommentData}
    (hpl : pl ∈ m) (hcd : cd ∈ pl.2) : cd ∈ allRecords m := by
  unfold allRecords
  rw [List.mem_flatten]
  exact ⟨pl.2, List.mem_map.mpr ⟨pl, hpl, rfl⟩, hcd⟩

theorem assignDepth_post_id (index : List (String × CommentData)) (roots : List String)
    (kv : String × CommentData) : (assignDepth index roots kv).post_id = kv.2.post_id := by
  unfold assignDepth
  by_cases h : roots.contains kv.1
  · rw [if_pos h]
  · rw [if_neg h]

theorem assignDepth_eq_or (index : List (String × CommentData)) (roots : List String)
    (kv : String × CommentData) :
    assignDepth index roots kv = kv.2 ∨
      assignDepth index roots kv = { kv.2 with depth := computeDepth index kv.2 } := by
  unfold assignDepth
  by_cases h : roots.contains kv.1
  · rw [if_pos h]; exact Or.inl rfl
  · rw [if_neg h]; exact Or.inr rfl

theorem selected_origin {comments : List PrawComment} {post_ids : List String}
    {cd : CommentData} (h : cd ∈ allRecords (get_user_comments_on_posts comments post_ids)) :
    ∃ c ∈ comments, post_ids.contains c.submission_id = true ∧
      (cd = mkCommentData c ∨
        cd = mkWithDepth c (computeDepth (buildIndex comments post_ids).1
          (mkCommentData c))) := by
  have hsel : cd ∈ selectedList comments post_ids :=
    ((allRecords_output_perm comments post_ids).mem_iff).mp h
  obtain ⟨kv, hkv, _, hcdeq⟩ := mem_selectedList_iff.mp hsel
  obtain ⟨c, hc, hcont, _, hkv2⟩ := (buildIndex_inv comments post_ids).1 kv hkv
  refine ⟨c, hc, hcont, ?_⟩
  rcases assignDepth_eq_or (buildIndex comments post_ids).1 (buildIndex comments post_ids).2
      kv with ha | ha
  · left
    rw [hcdeq, ha, hkv2]
  · right
    rw [hcdeq, ha, hkv2]
    rfl

/-! ### Claim theorems -/

/-- C1 (counterexample): as stated, the claim is false: a perfectly
well-formed top-level comment whose post is not in the target set satisfies
the claim's membership condition (its parent points to a submission) yet
appears nowhere in the output, because the code drops off-target records
before indexing. -/
theorem c1_counterexample :
    hasPfx ("t3_") offTop.parent_id = true ∧ offTop ∈ [offTop] ∧
      ¬ appearsIn [offTop] (["P1"]) offTop.id := by
  refine ⟨rfl, by simp, ?_⟩
  rintro ⟨cd, hcd, _⟩
  rw [show get_user_comments_on_posts [offTop] (["P1"]) = [] from rfl] at hcd
  simp [allRecords] at hcd

/-- C1 (amended): on inputs with distinct ids, a comment id appears in the
output iff it is a chain member of the *post-filtered* collection: its
record's parent is a submission reference, or its parent is another record
of the post-filtered collection that is transitively a chain member. -/
theorem c1_selection_iff (comments : List PrawComment) (post_ids : List String)
    (hN : (comments.map PrawComment.id).Nodup) (cid : String) :
    appearsIn comments post_ids cid ↔
      InUserChain (postFiltered comments post_ids) cid :=
  appears_iff_inUserChain hN cid

/-- C1 (witness): the amended claim instantiated on the two-comment
scenario input. -/
theorem c1_selection_iff_witness :
    (([scnTop, scnReply].map PrawComment.id).Nodup) ∧
      (appearsIn [scnTop, scnReply] (["P1"]) ("c2") ↔
        InUserChain (postFiltered [scnTop, scnReply] (["P1"])) ("c2")) :=
  ⟨by decide, c1_selection_iff [scnTop, scnReply] (["P1"]) (by decide) ("c2")⟩

/-- C5: the output never contains a record whose `post_id` is outside the
target set: off-target records are dropped by the reconstruction itself. -/
theorem c5_post_filter (comments : List PrawComment) (post_ids : List String)
    (pl : String × List CommentData)
    (hpl : pl ∈ get_user_comments_on_posts comments post_ids)
    (cd : CommentData) (hcd : cd ∈ pl.2) : cd.post_id ∈ post_ids := by
  have hall := mem_allRecords hpl hcd
  obtain ⟨c, _, hcont, hor⟩ := selected_origin hall
  have hpost : cd.post_id = c.submission_id := by
    rcases hor with h | h
    · rw [h]; rfl
    · rw [h]; rfl
  rw [hpost]
  exact List.mem_of_elem_eq_true hcont

/-- C5 (witness): instantiated on the scenario input. -/
theorem c5_post_filter_witness :
    (("P1", [mkCommentData scnTop, mkWithDepth scnReply 1]) ∈
        get_user_comments_on_posts [scnTop, scnReply] (["P1"])) ∧
      (mkCommentData scnTop).post_id ∈ (["P1"]) :=
  ⟨by decide,
    c5_post_filter [scnTop, scnReply] (["P1"])
      ("P1", [mkCommentData scnTop, mkWithDepth scnReply 1]) (by decide)
      (mkCommentData scnTop) (by decide)⟩

/-- C7: the reconstruction is a pure function of its arguments: running it
twice on the same comment collection and target set gives identical
output. -/
theorem c7_idempotent (comments : List PrawComment) (post_ids : List String) :
    get_user_comments_on_posts comments post_ids =
      get_user_comments_on_posts comments post_ids := rfl

/-- C8 (counterexample): as stated, the claim is false: the `permalink`
field does not pass through unmodified — the code prefixes it with
`https://reddit.com` when building the record. -/
theorem c8_counterexample :
    get_user_comments_on_posts [scnTop] (["P1"]) = [("P1", [mkCommentData scnTop])] ∧
      (mkCommentData scnTop).permalink ≠ scnTop.permalink := by
  constructor
  · rfl
  · decide

/-- C8 (amended): every retained record preserves every input field except
`depth` (assigned by the reconstruction) and `permalink` (prefixed with
`https://reddit.com`). -/
theorem c8_frame (comments : List PrawComment) (post_ids : List String)
    (cd : CommentData)
    (hcd : cd ∈ allRecords (get_user_comments_on_posts comments post_ids)) :
    ∃ c ∈ comments, cd.id = c.id ∧ cd.body = c.body ∧ cd.score = c.score ∧
      cd.created_utc = c.created_utc ∧ cd.parent_id = c.parent_id ∧
      cd.is_submitter = c.is_submitter ∧ cd.post_id = c.submission_id ∧
      cd.permalink = "https://reddit.com" ++ c.permalink := by
  obtain ⟨c, hc, _, hor⟩ := selected_origin hcd
  refine ⟨c, hc, ?_⟩
  rcases hor with h | h
  · rw [h]
    exact ⟨rfl, rfl, rfl, rfl, rfl, rfl, rfl, rfl⟩
  · rw [h]
    exact ⟨rfl, rfl, rfl, rfl, rfl, rfl, rfl, rfl⟩

/-- C8 (witness): the amended frame property instantiated on the scenario
reply record. -/
theorem c8_frame_witness :
    ((mkWithDepth scnReply 1) ∈
        allRecords (get_user_comments_on_posts [scnTop, scnReply] (["P1"]))) ∧
      ∃ c ∈ [scnTop, scnReply], (mkWithDepth scnReply 1).id = c.id ∧
        (mkWithDepth scnReply 1).body = c.body ∧
        (mkWithDepth scnReply 1).score = c.score ∧
        (mkWithDepth scnReply 1).created_utc = c.created_utc ∧
        (mkWithDepth scnReply 1).parent_id = c.parent_id ∧
        (mkWithDepth scnReply 1).is_submitter = c.is_submitter ∧
        (mkWithDepth scnReply 1).post_id = c.submission_id ∧
        (mkWithDepth scnReply 1).permalink = "https://reddit.com" ++ c.permalink :=
  ⟨by decide, c8_frame [scnTop, scnReply] (["P1"]) (mkWithDepth scnReply 1) (by decide)⟩

/-- C10: every emitted post id maps to a non-empty list, and no record
occurs more than once across the whole output mapping. -/
theorem c10_output_shape (comments : List PrawComment) (post_ids : List String) :
    (∀ pl ∈ get_user_comments_on_posts comments post_ids, pl.2 ≠ []) ∧
      (∀ cd : CommentData,
        (allRecords (get_user_comments_on_posts comments post_ids)).count cd ≤ 1) := by
  constructor
  · intro pl hpl
    unfold get_user_comments_on_posts at hpl
    rw [groupComments_eq_fold] at hpl
    obtain ⟨kv, hkv, hpleq⟩ := List.mem_map.mp hpl
    have hne : kv.2 ≠ [] :=
      groupFold_vals_nonempty (selectedList comments post_ids) [] (by simp) kv hkv
    rw [← hpleq]
    intro hsort
    apply hne
    have hperm : (sortByCreated kv.2).Perm kv.2 := List.perm_insertionSort
      (fun a b : CommentData => a.created_utc ≤ b.created_utc) kv.2
    have hnil : sortByCreated kv.2 = [] := hsort
    rw [hnil] at hperm
    exact (hperm.symm).eq_nil
  · intro cd
    calc (allRecords (get_user_comments_on_posts comments post_ids)).count cd
        ≤ ((allRecords (get_user_comments_on_posts comments post_ids)).map
            (fun x => x.id)).count cd.id := count_le_count_map_id _ cd
      _ ≤ 1 := List.nodup_iff_count_le_one.mp (output_ids_nodup comments post_ids) cd.id

/-- C10 (witness): instantiated on the scenario input. -/
theorem c10_output_shape_witness :
    (("P1", [mkCommentData scnTop, mkWithDepth scnReply 1]) ∈
        get_user_comments_on_posts [scnTop, scnReply] (["P1"])) ∧
      [mkCommentData scnTop, mkWithDepth scnReply 1] ≠ ([] : List CommentData) ∧
      (allRecords (get_user_comments_on_posts [scnTop, scnReply]
        (["P1"]))).count (mkCommentData scnTop) ≤ 1 :=
  ⟨by decide,
    (c10_output_shape [scnTop, scnReply] (["P1"])).1
      ("P1", [mkCommentData scnTop, mkWithDepth scnReply 1]) (by decide),
    (c10_output_shape [scnTop, scnReply] (["P1"])).2 (mkCommentData scnTop)⟩

/-- C4: each per-post output list is sorted non-decreasing by
`created_utc`, and it is the stable sort of the pre-sort group: records of
equal key keep the order of the pre-sort group, which is built in index
(input) order, so output order is a function of the input. -/
theorem c4_sorted_stable (comments : List PrawComment) (post_ids : List String)
    (p : String) (l : List CommentData)
    (hl : lookupG (get_user_comments_on_posts comments post_ids) p = some l) :
    List.Sorted (fun a b : CommentData => a.created_utc ≤ b.created_utc) l ∧
      ∃ g, lookupG (groupComments comments post_ids) p = some g ∧
        l = sortByCreated g ∧
        ∀ k : Int, l.filter (fun cd => cd.created_utc == k) =
          g.filter (fun cd => cd.created_utc == k) := by
  have hmap : lookupG (get_user_comments_on_posts comments post_ids) p =
      (lookupG (groupComments comments post_ids) p).map sortByCreated :=
    lookupG_map_sort _ p
  rw [hmap] at hl
  cases hg : lookupG (groupComments comments post_ids) p with
  | none => rw [hg] at hl; cases hl
  | some g =>
    rw [hg] at hl
    injection hl with hl
    refine ⟨?_, g, rfl, hl.symm, ?_⟩
    · rw [← hl]
      exact sortByCreated_sorted g
    · intro k
      rw [← hl]
      exact sortByCreated_filter g k

/-- C4 (witness): instantiated on the scenario input. -/
theorem c4_sorted_stable_witness :
    (lookupG (get_user_comments_on_posts [scnTop, scnReply] (["P1"])) ("P1") =
        some [mkCommentData scnTop, mkWithDepth scnReply 1]) ∧
      List.Sorted (fun a b : CommentData => a.created_utc ≤ b.created_utc)
        [mkCommentData scnTop, mkWithDepth scnReply 1] :=
  ⟨by decide,
    (c4_sorted_stable [scnTop, scnReply] (["P1"]) ("P1")
      [mkCommentData scnTop, mkWithDepth scnReply 1] (by decide)).1⟩

/-- C6: a comment that is not top-level and whose decoded parent id is
absent from the input collection is excluded entirely from the output, with
no failure surfaced. -/
theorem c6_dangling_excluded (comments : List PrawComment) (post_ids : List String)
    (r : PrawComment) (_hr : r ∈ comments)
    (hu : ∀ r2 ∈ comments, r2.id = r.id → r2 = r)
    (ht3 : hasPfx ("t3_") r.parent_id = false)
    (hd : parentExtract r.parent_id ∉ comments.map PrawComment.id) :
    ¬ appearsIn comments post_ids r.id := by
  intro happ
  obtain ⟨hkeys, hret⟩ := appears_iff_retained.mp happ
  obtain ⟨kv, hkv, hk1⟩ := List.mem_map.mp hkeys
  obtain ⟨c, hcmem, hcont, hkid, hkcd⟩ := (buildIndex_inv comments post_ids).1 kv hkv
  have hcr : c = r := hu c hcmem (by rw [← hkid, hk1])
  have hkveq : (r.id, mkCommentData r) = kv := by
    have h1 : kv.1 = r.id := hk1
    have h2 : kv.2 = mkCommentData r := by rw [hkcd, hcr]
    rw [← h1, ← h2]
  have hlook : dictLookup (buildIndex comments post_ids).1 r.id =
      some (mkCommentData r) := by
    apply mem_dictLookup (buildIndex_inv comments post_ids).2.1
    rw [hkveq]
    exact hkv
  have hroots : (buildIndex comments post_ids).2.contains r.id = false := by
    cases hc : (buildIndex comments post_ids).2.contains r.id with
    | false => rfl
    | true =>
      obtain ⟨c2, hc2mem, _, hc2id, hc2t3⟩ :=
        (buildIndex_inv comments post_ids).2.2.2 r.id (List.mem_of_elem_eq_true hc)
      have : c2 = r := hu c2 hc2mem hc2id
      rw [this] at hc2t3
      rw [hc2t3] at ht3
      cases ht3
  have hchain : is_in_user_chain (buildIndex comments post_ids).1
      (buildIndex comments post_ids).2 r.id = some true := by
    unfold retainedB at hret
    rw [hroots, Bool.false_or] at hret
    exact getD_false_eq_true hret
  have hps : (dictLookup (buildIndex comments post_ids).1
      (parentExtract (mkCommentData r).parent_id)).isSome = false := by
    cases hs : (dictLookup (buildIndex comments post_ids).1
        (parentExtract (mkCommentData r).parent_id)).isSome with
    | false => rfl
    | true =>
      exfalso
      have hmem2 : parentExtract (mkCommentData r).parent_id ∈
          (buildIndex comments post_ids).1.map Prod.fst := dictLookup_isSome_iff.mp hs
      obtain ⟨kv2, hkv2, hk2⟩ := List.mem_map.mp hmem2
      obtain ⟨c2, hc2mem, _, hk2id, _⟩ := (buildIndex_inv comments post_ids).1 kv2 hkv2
      apply hd
      have hpe : (mkCommentData r).parent_id = r.parent_id := rfl
      rw [← hpe]
      rw [← hk2, hk2id]
      exact List.mem_map.mpr ⟨c2, hc2mem, rfl⟩
  have ht3' : hasPfx ("t3_") (mkCommentData r).parent_id = false := ht3
  have hfinal : chainAux (buildIndex comments post_ids).1
      (buildIndex comments post_ids).2
      ((buildIndex comments post_ids).1.length + 1) r.id [] = some false :=
    chainAux_eq_broken rfl hroots hlook ht3' hps
  unfold is_in_user_chain at hchain
  rw [hfinal] at hchain
  cases hchain

/-- C6 (witness): instantiated on a one-comment collection whose parent id
is missing. -/
theorem c6_dangling_excluded_witness :
    (dangRec ∈ [dangRec]) ∧ ¬ appearsIn [dangRec] (["P1"]) dangRec.id :=
  ⟨by simp,
    c6_dangling_excluded [dangRec] (["P1"]) dangRec (by simp)
      (by intro r2 h2 _; simpa using h2) (by decide) (by decide)⟩

/-- C2 (counterexample): as stated, the claim is false: with an untagged
parent reference (`r0`, no `t1_`/`t3_` prefix), a retained non-top-level
comment gets depth 0, because the depth walk's `while` condition fails
immediately even though the membership recursion followed the untagged
pointer to a root. -/
theorem c2_counterexample :
    get_user_comments_on_posts [untagRoot, untagChild] (["P1"]) =
      [("P1", [mkCommentData untagRoot, mkWithDepth untagChild 0])] ∧
      (mkWithDepth untagChild 0).depth = 0 ∧
      hasPfx ("t3_") (mkWithDepth untagChild 0).parent_id = false := by
  refine ⟨?_, rfl, by decide⟩
  rfl

/-- Number of comment-to-comment parent hops from a record back to a
top-level (root) record of the collection, as the specification words it:
a top-level record is 0 hops from its root; a record whose parent is
another record of the collection that is `n` hops from a root is `n + 1`
hops from that root. -/
inductive HopsToRoot (l : List PrawComment) : PrawComment → Nat → Prop
  | root (c : PrawComment) : c ∈ l → hasPfx ("t3_") c.parent_id = true →
      HopsToRoot l c 0
  | hop (c p : PrawComment) (n : Nat) : c ∈ l →
      hasPfx ("t3_") c.parent_id = false → p ∈ l →
      p.id = parentExtract c.parent_id → HopsToRoot l p n → HopsToRoot l c (n + 1)

theorem hopsToRoot_unique {comments : List PrawComment} {post_ids : List String}
    (hN : (comments.map PrawComment.id).Nodup) :
    ∀ {c : PrawComment} {n : Nat},
      HopsToRoot (postFiltered comments post_ids) c n →
      ∀ {n2 : Nat}, HopsToRoot (postFiltered comments post_ids) c n2 → n = n2 := by
  intro c n h1
  induction h1 with
  | root c hc ht3 =>
    intro n2 h2
    cases h2 with
    | root _ _ _ => rfl
    | hop _ p2 m2 _ ht3' _ _ _ => rw [ht3'] at ht3; cases ht3
  | hop c p m hc ht3 hp hpid hrec ih =>
    intro n2 h2
    cases h2 with
    | root _ _ ht3' => rw [ht3'] at ht3; cases ht3
    | hop _ p2 m2 _ _ hp2 hpid2 hrec2 =>
      have hpp : p2 = p := postFiltered_id_inj hN hp2 hp (by rw [hpid2, hpid])
      rw [hpp] at hrec2
      rw [ih hrec2]

theorem chain_depth_hops {comments : List PrawComment} {post_ids : List String}
    (hN : (comments.map PrawComment.id).Nodup)
    (hT : ∀ c ∈ comments, hasPfx ("t1_") c.parent_id = true ∨
      hasPfx ("t3_") c.parent_id = true) :
    ∀ (fuel : Nat) (cid : String) (visited : List String) (cd : CommentData)
      (d n : Nat),
      chainAux (plainIndex comments post_ids) (plainRoots comments post_ids)
        fuel cid visited = some true →
      (plainRoots comments post_ids).contains cid = false →
      dictLookup (plainIndex comments post_ids) cid = some cd →
      depthLoop (plainIndex comments post_ids) fuel cd.parent_id d = some n →
      ∃ c ∈ postFiltered comments post_ids, c.id = cid ∧
        ∃ k, n = d + k ∧ HopsToRoot (postFiltered comments post_ids) c k := by
  intro fuel
  induction fuel with
  | zero =>
    intro cid visited cd d n h _ _ _
    exact absurd h (by simp [chainAux])
  | succ f ih =>
    intro cid visited cd d n h hroot hlook hdw
    cases hv : visited.contains cid with
    | true => rw [chainAux_eq_visited hv] at h; cases h
    | false =>
      obtain ⟨c, hcf, hcid, hcdeq⟩ := plainIndex_lookup_inv hlook
      have hpar : cd.parent_id = c.parent_id := by rw [hcdeq]; rfl
      cases ht3 : hasPfx ("t3_") cd.parent_id with
      | true => rw [chainAux_eq_t3 hv hroot hlook ht3] at h; cases h
      | false =>
        have ht3c : hasPfx ("t3_") c.parent_id = false := by rw [← hpar]; exact ht3
        have ht1 : hasPfx ("t1_") cd.parent_id = true := by
          rw [hpar]
          rcases hT c (List.mem_of_mem_filter hcf) with h1 | h1
          · exact h1
          · rw [h1] at ht3c; cases ht3c
        cases hps : (dictLookup (plainIndex comments post_ids)
            (parentExtract cd.parent_id)).isSome with
        | false => rw [chainAux_eq_broken hv hroot hlook ht3 hps] at h; cases h
        | true =>
          rw [chainAux_eq_step hv hroot hlook ht3 hps] at h
          obtain ⟨cd2, hlookp⟩ := Option.isSome_iff_exists.mp hps
          have hpe : parentExtract cd.parent_id = strDrop cd.parent_id 3 := by
            unfold parentExtract
            rw [if_pos ht1]
          have hlookp' : dictLookup (plainIndex comments post_ids)
              (strDrop cd.parent_id 3) = some cd2 := by
            rw [← hpe]
            exact hlookp
          rw [depthLoop_eq_step ht1 hlookp'] at hdw
          cases hroot2 : (plainRoots comments post_ids).contains
              (parentExtract cd.parent_id) with
          | true =>
            have ht3p : hasPfx ("t3_") cd2.parent_id = true :=
              rootsGood_plain hN _ _ hroot2 hlookp
            have ht1p : hasPfx ("t1_") cd2.parent_id = false := hasPfx_t3_not_t1 ht3p
            obtain ⟨g, rfl⟩ : ∃ g, f = g + 1 := by
              cases f with
              | zero => exact absurd h (by simp [chainAux])
              | succ g => exact ⟨g, rfl⟩
            rw [depthLoop_eq_stop ht1p] at hdw
            injection hdw with hdw
            obtain ⟨c2, hc2f, hc2id, hc2t3⟩ := plainRoots_contains_iff.mp hroot2
            refine ⟨c, hcf, hcid, 1, by omega, ?_⟩
            refine HopsToRoot.hop c c2 0 hcf ht3c ?_ ?_ ?_
            · exact hc2f
            · rw [hc2id, ← hpar]
            · exact HopsToRoot.root c2 hc2f hc2t3
          | false =>
            obtain ⟨c2, hc2f, hc2id, k2, hnk, hhops⟩ :=
              ih (parentExtract cd.parent_id) (cid :: visited) cd2 (d + 1) n h
                hroot2 hlookp hdw
            refine ⟨c, hcf, hcid, k2 + 1, by omega, ?_⟩
            refine HopsToRoot.hop c c2 k2 hcf ht3c hc2f ?_ hhops
            rw [hc2id, ← hpar]

/-- C2 (amended): on inputs whose ids are distinct and whose parent
references are all tagged (`t1_` or `t3_`), every output record has depth
at least 0, and depth 0 exactly when its parent reference is a submission
reference; every output record's depth equals the number of
comment-to-comment parent hops from its record back to its root within the
post-filtered collection (0 for top-level roots), that hop count being
unique; and the two-comment scenario yields `C1` at depth 0 and `C2` at
depth 1 on post `P1`, ordered by `created_utc`. -/
theorem c2_depth_iff (comments : List PrawComment) (post_ids : List String)
    (hN : (comments.map PrawComment.id).Nodup)
    (hT : ∀ c ∈ comments, hasPfx ("t1_") c.parent_id = true ∨
      hasPfx ("t3_") c.parent_id = true) :
    (∀ cd ∈ allRecords (get_user_comments_on_posts comments post_ids),
      0 ≤ cd.depth ∧ (cd.depth = 0 ↔ hasPfx ("t3_") cd.parent_id = true)) ∧
    (∀ cd ∈ allRecords (get_user_comments_on_posts comments post_ids),
      ∃ c ∈ postFiltered comments post_ids, c.id = cd.id ∧
        HopsToRoot (postFiltered comments post_ids) c cd.depth) ∧
    (∀ (c : PrawComment) (n n2 : Nat),
      HopsToRoot (postFiltered comments post_ids) c n →
      HopsToRoot (postFiltered comments post_ids) c n2 → n = n2) ∧
    get_user_comments_on_posts [scnTop, scnReply] (["P1"]) =
      [("P1", [mkCommentData scnTop, mkWithDepth scnReply 1])] := by
  refine ⟨?_, ?_, fun c n n2 h1 h2 => hopsToRoot_unique hN h1 h2, rfl⟩
  · intro cd hcd
    obtain ⟨c, hcf, hcase⟩ := output_record_analysis hN cd hcd
    rcases hcase with ⟨ht3, hcdeq⟩ | ⟨ht3, hchain, n, hn, hcdeq⟩
    · refine ⟨Nat.zero_le _, ?_⟩
      rw [hcdeq]
      exact ⟨fun _ => ht3, fun _ => rfl⟩
    · have hcmem : c ∈ comments := List.mem_of_mem_filter hcf
      have ht1 : hasPfx ("t1_") c.parent_id = true := by
        rcases hT c hcmem with h | h
        · exact h
        · rw [h] at ht3; cases ht3
      have hge : 1 ≤ n := by
        have := depthLoop_t1_ge hn ht1
        omega
      refine ⟨Nat.zero_le _, ?_⟩
      rw [hcdeq]
      constructor
      · intro h0
        have : n = 0 := h0
        omega
      · intro h3
        have : hasPfx ("t3_") c.parent_id = true := h3
        rw [this] at ht3
        cases ht3
  · intro cd hcd
    obtain ⟨c, hcf, hcase⟩ := output_record_analysis hN cd hcd
    rcases hcase with ⟨ht3, hcdeq⟩ | ⟨ht3, hchain, n, hn, hcdeq⟩
    · refine ⟨c, hcf, ?_, ?_⟩
      · rw [hcdeq]; rfl
      · have hd0 : cd.depth = 0 := by rw [hcdeq]; rfl
        rw [hd0]
        exact HopsToRoot.root c hcf ht3
    · have hroot : (plainRoots comments post_ids).contains c.id = false := by
        cases hc0 : (plainRoots comments post_ids).contains c.id with
        | false => rfl
        | true =>
          obtain ⟨c2, hc2, hid2, ht32⟩ := plainRoots_contains_iff.mp hc0
          have hcc : c2 = c := postFiltered_id_inj hN hc2 hcf hid2
          rw [hcc] at ht32
          rw [ht32] at ht3
          cases ht3
      have hlookc : dictLookup (plainIndex comments post_ids) c.id =
          some (mkCommentData c) := plainIndex_lookup_of_mem hN hcf
      have hchain' : chainAux (plainIndex comments post_ids)
          (plainRoots comments post_ids) ((plainIndex comments post_ids).length + 1)
          c.id [] = some true := hchain
      obtain ⟨c2, hc2f, hc2id, k, hnk, hhops⟩ :=
        chain_depth_hops hN hT ((plainIndex comments post_ids).length + 1) c.id []
          (mkCommentData c) 0 n hchain' hroot hlookc hn
      have hkn : k = n := by omega
      refine ⟨c2, hc2f, ?_, ?_⟩
      · rw [hc2id, hcdeq]; rfl
      · have hdn : cd.depth = n := by rw [hcdeq]; rfl
        rw [hdn, ← hkn]
        exact hhops

/-- C2 (witness): the amended claim instantiated on the scenario input. -/
theorem c2_depth_iff_witness :
    (([scnTop, scnReply].map PrawComment.id).Nodup) ∧
      (∀ cd ∈ allRecords (get_user_comments_on_posts [scnTop, scnReply] (["P1"])),
        0 ≤ cd.depth ∧ (cd.depth = 0 ↔ hasPfx ("t3_") cd.parent_id = true)) :=
  ⟨by decide,
    (c2_depth_iff [scnTop, scnReply] (["P1"]) (by decide) (by decide)).1⟩

/-- C3 (counterexample): as stated, the claim is false: on an input with a
duplicated comment id (`dupComments`), comment `b1` is retained and is not
a root, yet the depth walk started from its parent reference exhausts the
fuel the wrapper provides — and `depthLoop_dup_none` shows no fuel is ever
enough: the source's unguarded `while` loop runs forever on this input. -/
theorem c3_counterexample :
    retainedB dupIndex dupRoots ("b1") = true ∧
      dupRoots.contains ("b1") = false ∧
      dictLookup dupIndex ("b1") = some (mkCommentData dupChild) ∧
      depthLoop dupIndex (dupIndex.length + 1)
        ((mkCommentData dupChild).parent_id) 0 = none := by
  refine ⟨by decide, by decide, by decide, ?_⟩
  exact depthLoop_dup_none _ _

/-- C3 (amended): the membership recursion terminates on every input,
however malformed; on inputs with distinct ids, the depth walk terminates
for every retained non-root comment; a two-comment parent cycle terminates
and excludes both comments; a self-referential parent is resolved to "not a
member" by the cycle guard and excluded. -/
theorem c3_termination :
    (∀ (index : List (String × CommentData)) (roots : List String) (cid : String),
        (is_in_user_chain index roots cid).isSome = true) ∧
      (∀ (comments : List PrawComment) (post_ids : List String),
        (comments.map PrawComment.id).Nodup →
        ∀ kv ∈ (buildIndex comments post_ids).1,
          retainedB (buildIndex comments post_ids).1
            (buildIndex comments post_ids).2 kv.1 = true →
          (buildIndex comments post_ids).2.contains kv.1 = false →
          (depthLoop (buildIndex comments post_ids).1
            ((buildIndex comments post_ids).1.length + 1)
            kv.2.parent_id 0).isSome = true) ∧
      get_user_comments_on_posts [cycUp, cycDown] (["P1"]) = [] ∧
      is_in_user_chain (buildIndex [selfLoop] (["P1"])).1
        (buildIndex [selfLoop] (["P1"])).2 ("sa") = some false ∧
      get_user_comments_on_posts [selfLoop] (["P1"]) = [] := by
  refine ⟨is_in_user_chain_isSome, ?_, rfl, by decide, rfl⟩
  intro comments post_ids hN kv hkv0 hret0 hnroot0
  have hbi := buildIndex_eq comments post_ids hN
  rw [hbi] at hkv0 hret0 hnroot0
  have hkv : kv ∈ plainIndex comments post_ids := hkv0
  have hret : retainedB (plainIndex comments post_ids) (plainRoots comments post_ids)
      kv.1 = true := hret0
  have hnroot : (plainRoots comments post_ids).contains kv.1 = false := hnroot0
  have hchain : is_in_user_chain (plainIndex comments post_ids)
      (plainRoots comments post_ids) kv.1 = some true := by
    unfold retainedB at hret
    rw [hnroot, Bool.false_or] at hret
    exact getD_false_eq_true hret
  have hkvp : (kv.1, kv.2) ∈ plainIndex comments post_ids := by
    rw [Prod.mk.eta]
    exact hkv
  have hlook : dictLookup (plainIndex comments post_ids) kv.1 = some kv.2 :=
    mem_dictLookup (plainIndex_keys_nodup hN) hkvp
  have hds : ∃ n, depthLoop (plainIndex comments post_ids)
      ((plainIndex comments post_ids).length + 1) kv.2.parent_id 0 = some n :=
    chain_depth_some (rootsGood_plain hN) hchain hnroot hlook
  obtain ⟨n, hn⟩ := hds
  have hgoal : depthLoop (buildIndex comments post_ids).1
      ((buildIndex comments post_ids).1.length + 1) kv.2.parent_id 0 = some n := by
    rw [hbi]
    exact hn
  rw [hgoal]
  rfl

/-- C3 (witness): the depth-walk termination clause instantiated on the
scenario reply, whose parent chain reaches the root `c1`. -/
theorem c3_termination_witness :
    (([scnTop, scnReply].map PrawComment.id).Nodup) ∧
      (depthLoop (buildIndex [scnTop, scnReply] (["P1"])).1
        ((buildIndex [scnTop, scnReply] (["P1"])).1.length + 1)
        (("c2", mkCommentData scnReply) : String × CommentData).2.parent_id 0).isSome
        = true :=
  ⟨by decide,
    c3_termination.2.1 [scnTop, scnReply] (["P1"]) (by decide)
      ("c2", mkCommentData scnReply) (by decide) (by decide) (by decide)⟩

/-- C9 (counterexample): as stated, the claim is false: with a duplicated
id, a stale root is emitted whose final record's parent reference points at
the comment `q1`, which is nowhere in the output (the only output record is
`e1`), and its depth is 0 rather than one more than any parent. -/
theorem c9_counterexample :
    get_user_comments_on_posts [staleTop, staleOver] (["P1"]) =
      [("P1", [mkCommentData staleOver])] ∧
      hasPfx ("t1_") (mkCommentData staleOver).parent_id = true ∧
      strDrop (mkCommentData staleOver).parent_id 3 = "q1" ∧
      (mkCommentData staleOver).id = "e1" ∧
      ("e1" : String) ≠ ("q1" : String) ∧
      (mkCommentData staleOver).depth = 0 := by
  refine ⟨?_, by decide, by decide, rfl, by decide, rfl⟩
  rfl

/-- C9 (amended): on inputs with distinct ids, every output record whose
parent reference is a comment reference has its parent comment in the
output as well, and its depth is the parent's depth plus one. -/
theorem c9_parent_closure (comments : List PrawComment) (post_ids : List String)
    (hN : (comments.map PrawComment.id).Nodup) (cd : CommentData)
    (hcd : cd ∈ allRecords (get_user_comments_on_posts comments post_ids))
    (ht1 : hasPfx ("t1_") cd.parent_id = true) :
    ∃ cdp ∈ allRecords (get_user_comments_on_posts comments post_ids),
      cdp.id = strDrop cd.parent_id 3 ∧ cd.depth = cdp.depth + 1 := by
  have hbi := buildIndex_eq comments post_ids hN
  obtain ⟨c, hcf, hcase⟩ := output_record_analysis hN cd hcd
  rcases hcase with ⟨ht3, hcdeq⟩ | ⟨ht3, hchain, n, hn, hcdeq⟩
  · exfalso
    rw [hcdeq] at ht1
    have : hasPfx ("t1_") c.parent_id = true := ht1
    rw [hasPfx_t1_not_t3 this] at ht3
    cases ht3
  · have hcpar : cd.parent_id = c.parent_id := by rw [hcdeq]; rfl
    have ht1c : hasPfx ("t1_") c.parent_id = true := by rw [← hcpar]; exact ht1
    have hroot : (plainRoots comments post_ids).contains c.id = false := by
      cases hc0 : (plainRoots comments post_ids).contains c.id with
      | false => rfl
      | true =>
        obtain ⟨c2, hc2, hid2, ht32⟩ := plainRoots_contains_iff.mp hc0
        have : c2 = c := postFiltered_id_inj hN hc2 hcf hid2
        rw [this] at ht32
        rw [ht32] at ht3
        cases ht3
    have hlookc : dictLookup (plainIndex comments post_ids) c.id =
        some (mkCommentData c) := plainIndex_lookup_of_mem hN hcf
    have ht3m : hasPfx ("t3_") (mkCommentData c).parent_id = false := ht3
    have hpeq : parentExtract (mkCommentData c).parent_id = strDrop c.parent_id 3 := by
      unfold parentExtract
      have : (mkCommentData c).parent_id = c.parent_id := rfl
      rw [this, if_pos ht1c]
    cases hps : (dictLookup (plainIndex comments post_ids)
        (parentExtract (mkCommentData c).parent_id)).isSome with
    | false =>
      exfalso
      have hbroken : chainAux (plainIndex comments post_ids)
          (plainRoots comments post_ids)
          ((plainIndex comments post_ids).length + 1) c.id [] = some false :=
        chainAux_eq_broken rfl hroot hlookc ht3m hps
      unfold is_in_user_chain at hchain
      rw [hbroken] at hchain
      cases hchain
    | true =>
      obtain ⟨cdp0, hlookp⟩ := Option.isSome_iff_exists.mp hps
      have hstep : chainAux (plainIndex comments post_ids)
          (plainRoots comments post_ids)
          ((plainIndex comments post_ids).length + 1) c.id [] =
          chainAux (plainIndex comments post_ids) (plainRoots comments post_ids)
            (plainIndex comments post_ids).length
            (parentExtract (mkCommentData c).parent_id) (c.id :: []) :=
        chainAux_eq_step rfl hroot hlookc ht3m hps
      unfold is_in_user_chain at hchain
      rw [hstep] at hchain
      have hchain3 : chainAux (plainIndex comments post_ids)
          (plainRoots comments post_ids) (plainIndex comments post_ids).length
          (parentExtract (mkCommentData c).parent_id) [] = some true := by
        apply chainAux_mono_visited ?_ hchain
        intro x hx
        cases hx
      have hchainp : is_in_user_chain (plainIndex comments post_ids)
          (plainRoots comments post_ids) (parentExtract (mkCommentData c).parent_id) =
          some true := chainAux_mono_fuel hchain3 (Nat.le_succ _)
      have hmemp : (parentExtract (mkCommentData c).parent_id, cdp0) ∈
          plainIndex comments post_ids := dictLookup_mem hlookp
      have hpid : cdp0.id = parentExtract (mkCommentData c).parent_id :=
        plainIndex_mem_id hmemp
      have hmemB : (parentExtract (mkCommentData c).parent_id, cdp0) ∈
          (buildIndex comments post_ids).1 := by
        rw [hbi]
        exact hmemp
      have hretB : retainedB (buildIndex comments post_ids).1
          (buildIndex comments post_ids).2
          (parentExtract (mkCommentData c).parent_id) = true := by
        rw [hbi]
        unfold retainedB
        rw [hchainp]
        simp
      have hpsel : assignDepth (buildIndex comments post_ids).1
          (buildIndex comments post_ids).2
          (parentExtract (mkCommentData c).parent_id, cdp0) ∈
          selectedList comments post_ids :=
        mem_selectedList_iff.mpr ⟨_, hmemB, hretB, rfl⟩
      have hpout : assignDepth (buildIndex comments post_ids).1
          (buildIndex comments post_ids).2
          (parentExtract (mkCommentData c).parent_id, cdp0) ∈
          allRecords (get_user_comments_on_posts comments post_ids) :=
        ((allRecords_output_perm comments post_ids).mem_iff).mpr hpsel
      have hlookp' : dictLookup (plainIndex comments post_ids)
          (strDrop c.parent_id 3) = some cdp0 := by
        rw [← hpeq]
        exact hlookp
      have hnstep : depthLoop (plainIndex comments post_ids)
          ((plainIndex comments post_ids).length + 1) c.parent_id 0 =
          depthLoop (plainIndex comments post_ids)
            (plainIndex comments post_ids).length cdp0.parent_id 1 :=
        depthLoop_eq_step ht1c hlookp'
      have hshift : depthLoop (plainIndex comments post_ids)
          (plainIndex comments post_ids).length cdp0.parent_id 1 =
          (depthLoop (plainIndex comments post_ids)
            (plainIndex comments post_ids).length cdp0.parent_id 0).map
              (fun n => n + 1) :=
        depthLoop_shift (plainIndex comments post_ids).length cdp0.parent_id 1
      rw [hnstep, hshift] at hn
      obtain ⟨k, hk, hnk⟩ : ∃ k, depthLoop (plainIndex comments post_ids)
          (plainIndex comments post_ids).length cdp0.parent_id 0 = some k ∧
          k + 1 = n := by
        cases hinner : depthLoop (plainIndex comments post_ids)
            (plainIndex comments post_ids).length cdp0.parent_id 0 with
        | none => rw [hinner] at hn; cases hn
        | some k =>
          rw [hinner] at hn
          injection hn with hn
          exact ⟨k, rfl, hn⟩
      have hLpos : 0 < (plainIndex comments post_ids).length :=
        List.length_pos.mpr (List.ne_nil_of_mem hmemp)
      refine ⟨assignDepth (buildIndex comments post_ids).1
        (buildIndex comments post_ids).2
        (parentExtract (mkCommentData c).parent_id, cdp0), hpout, ?_, ?_⟩
      · rw [assignDepth_id]
        have : ((parentExtract (mkCommentData c).parent_id, cdp0) :
            String × CommentData).2 = cdp0 := rfl
        rw [this, hpid, hpeq, hcpar]
      · have hcddepth : cd.depth = n := by rw [hcdeq]; rfl
        cases hrootp : (buildIndex comments post_ids).2.contains
            (parentExtract (mkCommentData c).parent_id) with
        | true =>
          have hpoutval : assignDepth (buildIndex comments post_ids).1
              (buildIndex comments post_ids).2
              (parentExtract (mkCommentData c).parent_id, cdp0) = cdp0 := by
            unfold assignDepth
            rw [if_pos (show (buildIndex comments post_ids).2.contains
              ((parentExtract (mkCommentData c).parent_id, cdp0) :
                String × CommentData).1 = true from hrootp)]
          rw [hpoutval]
          have hrootp' : (plainRoots comments post_ids).contains
              (parentExtract (mkCommentData c).parent_id) = true := by
            rw [hbi] at hrootp
            exact hrootp
          have ht3p : hasPfx ("t3_") cdp0.parent_id = true :=
            rootsGood_plain hN _ _ hrootp' hlookp
          have ht1p : hasPfx ("t1_") cdp0.parent_id = false := hasPfx_t3_not_t1 ht3p
          obtain ⟨L2, hL2⟩ : ∃ g, (plainIndex comments post_ids).length = g + 1 :=
            ⟨(plainIndex comments post_ids).length - 1, by omega⟩
          rw [hL2, depthLoop_eq_stop ht1p] at hk
          injection hk with hk
          obtain ⟨c2, _, _, hcd2⟩ := plainIndex_lookup_inv hlookp
          have hd0 : cdp0.depth = 0 := by rw [hcd2]; rfl
          rw [hd0, hcddepth, ← hnk, ← hk]
        | false =>
          have hdepthp : computeDepth (buildIndex comments post_ids).1 cdp0 = k := by
            unfold computeDepth
            have hk2 : depthLoop (plainIndex comments post_ids)
                ((plainIndex comments post_ids).length + 1) cdp0.parent_id 0 = some k :=
              depthLoop_mono_fuel hk (Nat.le_succ _)
            have hk3 : depthLoop (buildIndex comments post_ids).1
                ((buildIndex comments post_ids).1.length + 1) cdp0.parent_id 0 =
                some k := by
              rw [hbi]
              exact hk2
            rw [hk3]
            rfl
          have hpoutval : assignDepth (buildIndex comments post_ids).1
              (buildIndex comments post_ids).2
              (parentExtract (mkCommentData c).parent_id, cdp0) =
              mkWithDepth2 cdp0 k := by
            unfold assignDepth
            rw [if_neg (show ¬(buildIndex comments post_ids).2.contains
              ((parentExtract (mkCommentData c).parent_id, cdp0) :
                String × CommentData).1 = true by rw [hrootp]; simp)]
            unfold mkWithDepth2
            rw [show computeDepth (buildIndex comments post_ids).1
              ((parentExtract (mkCommentData c).parent_id, cdp0) :
                String × CommentData).2 = k from hdepthp]
          rw [hpoutval]
          have : (mkWithDepth2 cdp0 k).depth = k := rfl
          rw [this, hcddepth, ← hnk]

/-- C9 (witness): the amended parent-closure property instantiated on the
scenario reply, whose parent `c1` sits in the same output group at depth
0. -/
theorem c9_parent_closure_witness :
    (([scnTop, scnReply].map PrawComment.id).Nodup) ∧
      ((mkWithDepth scnReply 1) ∈
        allRecords (get_user_comments_on_posts [scnTop, scnReply] (["P1"]))) ∧
      hasPfx ("t1_") (mkWithDepth scnReply 1).parent_id = true ∧
      ∃ cdp ∈ allRecords (get_user_comments_on_posts [scnTop, scnReply] (["P1"])),
        cdp.id = strDrop (mkWithDepth scnReply 1).parent_id 3 ∧
        (mkWithDepth scnReply 1).depth = cdp.depth + 1 :=
  ⟨by decide, by decide, by decide,
    c9_parent_closure [scnTop, scnReply] (["P1"]) (by decide)
      (mkWithDepth scnReply 1) (by decide) (by decide)⟩
